import Mathlib

/-
Verification of the knowledge-graph subsystem of the study-assistant backend
(ai-assistant-backend/app.py): concept normalization, concept extraction, the
knowledge-node store, the co-occurrence graph builder, the mastery ranking and
the mind-map tree-merge engine.

Python strings are modelled as lists of Unicode characters (`List Char`), so
`len`, slicing and `strip` act on code points exactly as in Python.
-/

/-- Whitespace predicate used by Python's `str.strip()` and the regex `\s`
(ASCII whitespace plus the common Unicode space code points). -/
def pyIsSpace (c : Char) : Bool :=
  let n := c.toNat
  n == 0x20 || n == 0x09 || n == 0x0a || n == 0x0d || n == 0x0b || n == 0x0c ||
  n == 0x1c || n == 0x1d || n == 0x1e || n == 0x1f || n == 0x85 || n == 0xa0 ||
  n == 0x1680 || (0x2000 ≤ n && n ≤ 0x200a) || n == 0x2028 || n == 0x2029 ||
  n == 0x202f || n == 0x205f || n == 0x3000

/-- Python `s.strip(chars)`: remove leading and trailing characters satisfying
the predicate. -/
def stripWhile (p : Char → Bool) (l : List Char) : List Char :=
  ((l.dropWhile p).reverse.dropWhile p).reverse

/-- Map every whitespace character to a plain space (first half of
`re.sub(r'\s+', ' ', s)`). -/
def wsToSpace (c : Char) : Char := if pyIsSpace c then ' ' else c

/-- Collapse runs of adjacent spaces to a single space (second half of
`re.sub(r'\s+', ' ', s)`, once all whitespace is a plain space). -/
def squashSpaces : List Char → List Char
  | [] => []
  | a :: rest =>
    match rest with
    | [] => [a]
    | b :: _ => if a == ' ' && b == ' ' then squashSpaces rest else a :: squashSpaces rest

/-- `re.sub(r'\s+', ' ', s)`: every maximal whitespace run becomes one space. -/
def collapseWs (l : List Char) : List Char := squashSpaces (l.map wsToSpace)

/-- The character set of the second strip in `_normalize_concept_name`:
`' \t\r\n，。；;：:、-—'`. -/
def stripPunctSet (c : Char) : Bool :=
  c == ' ' || c == '\t' || c == '\r' || c == '\n' || c == '，' || c == '。' ||
  c == '；' || c == ';' || c == '：' || c == ':' || c == '、' || c == '-' || c == '—'

/-- `_normalize_concept_name` from app.py, on a string argument:
strip whitespace; if empty return ''; collapse whitespace runs; strip the
punctuation tail set from both ends; truncate to 24 characters. -/
def normalize_concept_name (value : List Char) : List Char :=
  let s := stripWhile pyIsSpace value
  if s = [] then []
  else
    let s1 := stripWhile stripPunctSet (collapseWs s)
    if 24 < s1.length then s1.take 24 else s1

/-- `list(dict.fromkeys(l))`: deduplicate keeping the first occurrence of each
element, preserving order. -/
def dedupFirst {α : Type} [DecidableEq α] : List α → List α
  | [] => []
  | x :: xs => x :: (dedupFirst xs).filter (fun y => y ≠ x)

example : normalize_concept_name ("  二次  函数：".data) = "二次 函数".data := by decide
example : normalize_concept_name (((List.replicate 23 'a') ++ [' ', 'b'])) =
    (List.replicate 23 'a') ++ [' '] := by decide
example : dedupFirst ["a".data, "b".data, "a".data] = ["a".data, "b".data] := by decide

/-- The cleaned string of `_normalize_concept_name` just before the 24-char
truncation (for a non-whitespace input). -/
def conceptMid (value : List Char) : List Char :=
  stripWhile stripPunctSet (collapseWs (stripWhile pyIsSpace value))

lemma normalize_concept_name_eq (value : List Char) :
    normalize_concept_name value =
      if stripWhile pyIsSpace value = [] then []
      else if 24 < (conceptMid value).length then (conceptMid value).take 24
      else conceptMid value := rfl

lemma dropWhile_head_not (p : Char → Bool) (l : List Char) :
    ∀ c, (l.dropWhile p).head? = some c → p c = false := by
  induction l with
  | nil => intro c h; simp at h
  | cons a t ih =>
    intro c h
    rw [List.dropWhile_cons] at h
    by_cases hp : p a
    · simp [hp] at h; exact ih c h
    · simp [hp] at h; simpa [← h] using hp

lemma stripWhile_prefix_dropWhile (p : Char → Bool) (l : List Char) :
    stripWhile p l <+: l.dropWhile p := by
  unfold stripWhile
  have h : (l.dropWhile p).reverse.dropWhile p <:+ (l.dropWhile p).reverse :=
    List.dropWhile_suffix p
  rw [← List.reverse_reverse (l.dropWhile p)] at h
  exact (List.reverse_suffix).mp (by simpa using h)

lemma stripWhile_within (p : Char → Bool) (l : List Char) : stripWhile p l <:+: l := by
  have h1 : stripWhile p l <+: l.dropWhile p := stripWhile_prefix_dropWhile p l
  have h2 : l.dropWhile p <:+ l := List.dropWhile_suffix p
  have h3 := h1.isInfix
  have h4 := h2.isInfix
  exact h3.trans h4

lemma mem_stripWhile (p : Char → Bool) (l : List Char) {c : Char}
    (h : c ∈ stripWhile p l) : c ∈ l :=
  (stripWhile_within p l).sublist.mem h

lemma head?_isPrefix {l₁ l₂ : List Char} (h : l₁ <+: l₂) (c : Char)
    (hc : l₁.head? = some c) : l₂.head? = some c := by
  obtain ⟨r, rfl⟩ := h
  cases l₁ with
  | nil => simp at hc
  | cons a t => simpa using hc

lemma stripWhile_head_not (p : Char → Bool) (l : List Char) :
    ∀ c, (stripWhile p l).head? = some c → p c = false := by
  intro c hc
  exact dropWhile_head_not p l c
    (head?_isPrefix (stripWhile_prefix_dropWhile p l) c hc)

lemma stripWhile_getLast_not (p : Char → Bool) (l : List Char) :
    ∀ c, (stripWhile p l).getLast? = some c → p c = false := by
  intro c hc
  unfold stripWhile at hc
  rw [List.getLast?_reverse] at hc
  exact dropWhile_head_not p (l.dropWhile p).reverse c hc

lemma dropWhile_eq_self_of_head (p : Char → Bool) (l : List Char)
    (h : ∀ c, l.head? = some c → p c = false) : l.dropWhile p = l := by
  cases l with
  | nil => rfl
  | cons a t => rw [List.dropWhile_cons]; simp [h a rfl]

lemma stripWhile_eq_self (p : Char → Bool) (l : List Char)
    (hh : ∀ c, l.head? = some c → p c = false)
    (hl : ∀ c, l.getLast? = some c → p c = false) : stripWhile p l = l := by
  unfold stripWhile
  rw [dropWhile_eq_self_of_head p l hh]
  rw [dropWhile_eq_self_of_head p l.reverse (by intro c hc; rw [List.head?_reverse] at hc; exact hl c hc)]
  exact List.reverse_reverse l

/-- "no two adjacent spaces" relation maintained by `squashSpaces`. -/
def spaceRel (a b : Char) : Prop := ¬(a = ' ' ∧ b = ' ')

lemma squash_sublist (l : List Char) : List.Sublist (squashSpaces l) l := by
  induction l with
  | nil => simp [squashSpaces]
  | cons a t ih =>
    cases t with
    | nil => simp [squashSpaces]
    | cons b u =>
      rw [squashSpaces]
      by_cases hab : (a == ' ' && b == ' ') = true
      · simp only [hab, if_pos]
        exact ih.trans (List.sublist_cons_self a (b :: u))
      · simp only [hab, if_neg, Bool.not_eq_true]
        exact ih.cons₂ a

lemma squash_head_of_ne (b : Char) (t : List Char) (hb : b ≠ ' ') :
    (squashSpaces (b :: t)).head? = some b := by
  cases t with
  | nil => simp [squashSpaces]
  | cons c u => rw [squashSpaces]; simp [hb]

lemma squash_chain (l : List Char) : List.Chain' spaceRel (squashSpaces l) := by
  induction l with
  | nil => simp [squashSpaces]
  | cons a t ih =>
    cases t with
    | nil => simp [squashSpaces]
    | cons b u =>
      rw [squashSpaces]
      by_cases hab : (a == ' ' && b == ' ') = true
      · simp only [hab, if_pos]; exact ih
      · simp only [hab, if_neg, Bool.not_eq_true]
        rw [List.chain'_cons']
        refine ⟨?_, ih⟩
        intro y hy
        by_cases ha : a = ' '
        · have hbne : b ≠ ' ' := by
            intro hbe; exact hab (by simp [ha, hbe])
          rw [squash_head_of_ne b u hbne] at hy
          simp only [Option.mem_def, Option.some.injEq] at hy
          exact fun hcon => hbne (hy ▸ hcon.2)
        · exact fun hcon => ha hcon.1

lemma squash_eq_self (l : List Char) (h : List.Chain' spaceRel l) : squashSpaces l = l := by
  induction l with
  | nil => rfl
  | cons a t ih =>
    cases t with
    | nil => rfl
    | cons b u =>
      rw [List.chain'_cons] at h
      rw [squashSpaces]
      have hab : (a == ' ' && b == ' ') ≠ true := by
        intro hcon
        simp only [Bool.and_eq_true, beq_iff_eq] at hcon
        exact h.1 hcon
      simp only [hab, if_neg, Bool.not_eq_true]
      rw [ih h.2]

lemma mem_collapse_space (l : List Char) {c : Char} (hc : c ∈ collapseWs l)
    (hs : pyIsSpace c = true) : c = ' ' := by
  unfold collapseWs at hc
  have := (squash_sublist (l.map wsToSpace)).mem hc
  rw [List.mem_map] at this
  obtain ⟨a, _, ha⟩ := this
  unfold wsToSpace at ha
  by_cases hpa : pyIsSpace a
  · simp [hpa] at ha; exact ha.symm
  · simp [hpa] at ha; rw [← ha] at hs; exact absurd hs (by simp [hpa])

lemma map_id_of_mem {α : Type} (f : α → α) (l : List α) (h : ∀ x ∈ l, f x = x) :
    l.map f = l := by
  induction l with
  | nil => rfl
  | cons a t ih => simp only [List.map_cons, h a (by simp), ih (fun x hx => h x (by simp [hx]))]

lemma conceptMid_head_not_space (value : List Char) :
    ∀ c, (conceptMid value).head? = some c → pyIsSpace c = false := by
  intro c hc
  by_cases hs : pyIsSpace c
  · have hmem : c ∈ conceptMid value := by
      cases hm : conceptMid value with
      | nil => rw [hm] at hc; simp at hc
      | cons a t => rw [hm] at hc; simp at hc; simp [hm, hc]
    have hcol : c ∈ collapseWs (stripWhile pyIsSpace value) :=
      mem_stripWhile stripPunctSet _ hmem
    have : c = ' ' := mem_collapse_space _ hcol hs
    have hp := stripWhile_head_not stripPunctSet (collapseWs (stripWhile pyIsSpace value)) c hc
    rw [this] at hp
    simp [stripPunctSet] at hp
  · simpa using hs

lemma getLast?_mem {l : List Char} {c : Char} (h : l.getLast? = some c) : c ∈ l :=
  List.mem_of_mem_getLast? (by simpa using h)

lemma conceptMid_getLast_not_space (value : List Char) :
    ∀ c, (conceptMid value).getLast? = some c → pyIsSpace c = false := by
  intro c hc
  by_cases hs : pyIsSpace c
  · have hmem : c ∈ conceptMid value := getLast?_mem hc
    have hcol : c ∈ collapseWs (stripWhile pyIsSpace value) :=
      mem_stripWhile stripPunctSet _ hmem
    have hsp : c = ' ' := mem_collapse_space _ hcol hs
    have hp := stripWhile_getLast_not stripPunctSet (collapseWs (stripWhile pyIsSpace value)) c hc
    rw [hsp] at hp
    simp [stripPunctSet] at hp
  · simpa using hs

lemma head?_take_succ (l : List Char) (n : Nat) : (l.take (n + 1)).head? = l.head? := by
  cases l <;> simp

lemma conceptMid_chain (value : List Char) : List.Chain' spaceRel (conceptMid value) := by
  have h1 := squash_chain ((stripWhile pyIsSpace value).map wsToSpace)
  have h2 := stripWhile_within stripPunctSet (collapseWs (stripWhile pyIsSpace value))
  exact h1.infix h2

lemma conceptMid_space_eq (value : List Char) {c : Char} (hc : c ∈ conceptMid value)
    (hs : pyIsSpace c = true) : c = ' ' :=
  mem_collapse_space _ (mem_stripWhile stripPunctSet _ hc) hs


/-- C5: the Concept Normalizer's output is at most 24 characters and has no
leading whitespace; it has no trailing whitespace provided the cleaned string
was not truncated (i.e. was at most 24 characters before the cut). -/
theorem normalize_concept_name_bounds (value : List Char) :
    (normalize_concept_name value).length ≤ 24 ∧
    (∀ c, (normalize_concept_name value).head? = some c → pyIsSpace c = false) ∧
    ((conceptMid value).length ≤ 24 →
      ∀ c, (normalize_concept_name value).getLast? = some c → pyIsSpace c = false) := by
  rw [normalize_concept_name_eq]
  by_cases hs : stripWhile pyIsSpace value = []
  · simp [hs]
  · by_cases ht : 24 < (conceptMid value).length
    · simp only [hs, if_neg, ht, if_pos, ite_true, ite_false]
      refine ⟨?_, ?_, ?_⟩
      · rw [List.length_take]; omega
      · intro c hc
        have : (conceptMid value).head? = some c := by
          have h24 : (24 : Nat) = 23 + 1 := rfl
          rw [h24, head?_take_succ] at hc
          exact hc
        exact conceptMid_head_not_space value c this
      · intro hcon; omega
    · simp only [hs, ite_false, ht, if_neg]
      exact ⟨by omega, conceptMid_head_not_space value,
        fun _ => conceptMid_getLast_not_space value⟩

/-- C5 witness: the bounds theorem evaluated at a concrete input. -/
theorem normalize_concept_name_bounds_witness :
    (normalize_concept_name ("函数".data)).length ≤ 24 ∧
    (∀ c, (normalize_concept_name ("函数".data)).head? = some c → pyIsSpace c = false) ∧
    ((conceptMid ("函数".data)).length ≤ 24 →
      ∀ c, (normalize_concept_name ("函数".data)).getLast? = some c → pyIsSpace c = false) :=
  normalize_concept_name_bounds ("函数".data)

/-- C5 counterexample: truncation to 24 characters can leave a trailing space,
so the claim "never ... with leading/trailing whitespace" is false as stated. -/
theorem normalize_concept_name_trailing_space :
    (normalize_concept_name (List.replicate 23 'a' ++ [' ', 'b'])).getLast? = some ' ' := by
  decide

/-- C4 counterexample: the normalizer is not idempotent; truncating
23 a's followed by " b" yields a trailing space that a second
normalization removes. -/
theorem normalize_concept_name_not_idempotent :
    normalize_concept_name (normalize_concept_name (List.replicate 23 'a' ++ [' ', 'b'])) ≠
      normalize_concept_name (List.replicate 23 'a' ++ [' ', 'b']) := by
  decide

/-- C4 (amended): the Concept Normalizer is idempotent on every input whose
cleaned string is not truncated (at most 24 characters before the cut). -/
theorem normalize_idempotent_of_no_truncation (value : List Char)
    (h : (conceptMid value).length ≤ 24) :
    normalize_concept_name (normalize_concept_name value) = normalize_concept_name value := by
  by_cases hs : stripWhile pyIsSpace value = []
  · have h1 : normalize_concept_name value = [] := by
      rw [normalize_concept_name_eq, if_pos hs]
    rw [h1]; rfl
  · have h1 : normalize_concept_name value = conceptMid value := by
      rw [normalize_concept_name_eq, if_neg hs, if_neg (by omega)]
    rw [h1]
    have hstrip : stripWhile pyIsSpace (conceptMid value) = conceptMid value :=
      stripWhile_eq_self _ _ (conceptMid_head_not_space value) (conceptMid_getLast_not_space value)
    by_cases hm0 : conceptMid value = []
    · rw [hm0]; rfl
    · have hmap : (conceptMid value).map wsToSpace = conceptMid value :=
        map_id_of_mem _ _ (fun c hc => by
          unfold wsToSpace
          by_cases hsp : pyIsSpace c
          · have hce := conceptMid_space_eq value hc (by simpa using hsp)
            rw [hce]; simp
          · simp [hsp])
      have hcol : collapseWs (conceptMid value) = conceptMid value := by
        unfold collapseWs
        rw [hmap]
        exact squash_eq_self _ (conceptMid_chain value)
      have hpunct : stripWhile stripPunctSet (conceptMid value) = conceptMid value := by
        apply stripWhile_eq_self
        · exact stripWhile_head_not stripPunctSet (collapseWs (stripWhile pyIsSpace value))
        · exact stripWhile_getLast_not stripPunctSet (collapseWs (stripWhile pyIsSpace value))
      have hmid : conceptMid (conceptMid value) = conceptMid value := by
        rw [show conceptMid (conceptMid value) =
            stripWhile stripPunctSet (collapseWs (stripWhile pyIsSpace (conceptMid value)))
          from rfl, hstrip, hcol, hpunct]
      rw [normalize_concept_name_eq (conceptMid value), hstrip, if_neg hm0, hmid,
        if_neg (by omega)]

/-- C4 witness: idempotence at a concrete untruncated input. -/
theorem normalize_idempotent_witness :
    (conceptMid ("二次函数".data)).length ≤ 24 ∧
    normalize_concept_name (normalize_concept_name ("二次函数".data)) =
      normalize_concept_name ("二次函数".data) :=
  ⟨by decide, normalize_idempotent_of_no_truncation ("二次函数".data) (by decide)⟩

/-- Association-list lookup: first entry with the given key. -/
def alistGet {κ β : Type} [DecidableEq κ] : List (κ × β) → κ → Option β
  | [], _ => none
  | (k, v) :: rest, key => if k = key then some v else alistGet rest key

/-- Association-list update: replace the first entry with the key in place, or
append at the end (Python `dict[k] = v` ordering semantics). -/
def alistSet {κ β : Type} [DecidableEq κ] : List (κ × β) → κ → β → List (κ × β)
  | [], key, v => [(key, v)]
  | (k, w) :: rest, key, v =>
    if k = key then (key, v) :: rest else (k, w) :: alistSet rest key v

/-- Python substring test `pat in s` on strings. -/
def pyInStr : List Char → List Char → Bool
  | pat, [] => pat.isEmpty
  | pat, c :: rest => List.isPrefixOf pat (c :: rest) || pyInStr pat rest

/-- `SUBJECT_CHOICES` from app.py. -/
def SUBJECT_CHOICES : List (List Char) :=
  ["语文".data, "数学".data, "英语".data, "物理".data, "化学".data, "生物".data,
   "历史".data, "地理".data, "政治".data, "道德与法治".data, "科学".data,
   "信息技术".data, "通用技术".data, "体育与健康".data, "音乐".data, "美术".data,
   "劳动".data, "心理健康".data, "书法".data, "综合实践".data, "研究性学习".data,
   "校本课程".data, "地方课程".data, "少儿编程".data, "日语".data, "俄语".data,
   "法语".data, "德语".data, "经济与金融".data, "未分类".data]

/-- `_SUBJECT_ALIASES` from app.py, in insertion order. -/
def SUBJECT_ALIASES : List (List Char × List Char) :=
  [("中文".data, "语文".data), ("汉语".data, "语文".data), ("国文".data, "语文".data),
   ("语文作文".data, "语文".data), ("作文".data, "语文".data),
   ("数学(奥数)".data, "数学".data), ("奥数".data, "数学".data),
   ("英语口语".data, "英语".data), ("英语听力".data, "英语".data),
   ("生物学".data, "生物".data), ("历史学".data, "历史".data), ("地理学".data, "地理".data),
   ("思想政治".data, "政治".data), ("思政".data, "政治".data),
   ("道法".data, "道德与法治".data), ("品德与社会".data, "道德与法治".data),
   ("品德与生活".data, "道德与法治".data), ("信息科技".data, "信息技术".data),
   ("计算机".data, "信息技术".data), ("电脑".data, "信息技术".data),
   ("体育".data, "体育与健康".data), ("体育健康".data, "体育与健康".data),
   ("健康".data, "体育与健康".data), ("心理".data, "心理健康".data),
   ("综合实践活动".data, "综合实践".data), ("编程".data, "少儿编程".data),
   ("其他".data, "未分类".data), ("其它".data, "未分类".data)]

/-- The prefixes stripped by `normalize_subject` ('学科：', '科目：', ...). -/
def subjectPrefixes : List (List Char) :=
  ["学科：".data, "科目：".data, "科目:".data, "学科:".data, "subject:".data, "Subject:".data]

/-- The prefix-stripping loop of `normalize_subject` (first matching prefix
wins, remainder is whitespace-stripped). -/
def stripSubjectPrefix : List (List Char) → List Char → List Char
  | [], s => s
  | p :: ps, s =>
    if List.isPrefixOf p s then stripWhile pyIsSpace (s.drop p.length)
    else stripSubjectPrefix ps s

/-- Python `s.lower()` (ASCII case folding suffices for the English hints). -/
def pyLower (l : List Char) : List Char := l.map Char.toLower

/-- The "alias contains" pass of `normalize_subject`. -/
def aliasContains : List (List Char × List Char) → List Char → Option (List Char)
  | [], _ => none
  | (k, v) :: rest, s =>
    if k ≠ [] ∧ pyInStr k s then some v else aliasContains rest s

/-- The "choice contains" pass of `normalize_subject`. -/
def choiceContains : List (List Char) → List Char → Option (List Char)
  | [], _ => none
  | c :: rest, s =>
    if c ≠ "未分类".data ∧ pyInStr c s then some c else choiceContains rest s

/-- `normalize_subject` from app.py: `none` models Python `None`. -/
def normalize_subject (subject : Option (List Char)) : List Char :=
  match subject with
  | none => "未分类".data
  | some raw =>
    let s0 := stripWhile pyIsSpace raw
    if s0 = [] then "未分类".data
    else
      let s := stripSubjectPrefix subjectPrefixes s0
      if s ∈ SUBJECT_CHOICES then s
      else
        match alistGet SUBJECT_ALIASES s with
        | some v => v
        | none =>
          let low := pyLower s
          if pyInStr ("math".data) low then "数学".data
          else if pyInStr ("english".data) low then "英语".data
          else if pyInStr ("physics".data) low then "物理".data
          else if pyInStr ("chem".data) low then "化学".data
          else if pyInStr ("bio".data) low then "生物".data
          else if pyInStr ("history".data) low then "历史".data
          else if pyInStr ("geography".data) low then "地理".data
          else
            match aliasContains SUBJECT_ALIASES s with
            | some v => v
            | none =>
              match choiceContains SUBJECT_CHOICES s with
              | some c => c
              | none => "未分类".data

example : normalize_subject (some "数学".data) = "数学".data := by decide
example : normalize_subject none = "未分类".data := by decide
example : normalize_subject (some "  科目：物理 ".data) = "物理".data := by decide
example : normalize_subject (some "Advanced Math".data) = "数学".data := by decide

/-- `KnowledgeNode` rows: identity, owner, subject, normalized name, kind and
the two timestamps (modelled as natural numbers). -/
structure KnowledgeNode where
  id : Nat
  user_id : Int
  subject : List Char
  name : List Char
  kind : List Char
  created_at : Nat
  last_seen_at : Nat
deriving DecidableEq

/-- The knowledge-node table plus the autoincrement counter. -/
structure KnowledgeDB where
  nodes : List KnowledgeNode
  nextId : Nat
deriving DecidableEq

def kindConcept : List Char := "concept".data
def kindChapter : List Char := "chapter".data
def kindMethod : List Char := "method".data
def kindMistake : List Char := "mistake".data

/-- The `filter_by(user_id=..., subject=..., name=...)` predicate. -/
def nodeMatches (owner_user_id : Int) (subject name : List Char) (n : KnowledgeNode) : Bool :=
  n.user_id == owner_user_id && n.subject == subject && n.name == name

/-- `get_or_create_knowledge_node` from app.py. `now` models
`datetime.utcnow()`; the returned pair is (the node or `None`, the updated
table state). -/
def get_or_create_knowledge_node (db : KnowledgeDB) (now : Nat) (owner_user_id : Int)
    (subject name kind : List Char) : Option KnowledgeNode × KnowledgeDB :=
  let subject_norm := normalize_subject (some subject)
  let name_norm := normalize_concept_name name
  if name_norm = [] then (none, db)
  else
    match db.nodes.find? (nodeMatches owner_user_id subject_norm name_norm) with
    | some node =>
      let node' : KnowledgeNode :=
        { node with
          last_seen_at := now
          kind := if kind ≠ [] ∧ node.kind = kindConcept ∧ kind ≠ kindConcept then kind
                  else node.kind }
      (some node', { db with nodes := db.nodes.map (fun m => if m.id = node'.id then node' else m) })
    | none =>
      let node : KnowledgeNode :=
        { id := db.nextId, user_id := owner_user_id, subject := subject_norm,
          name := name_norm, kind := if kind = [] then kindConcept else kind,
          created_at := now, last_seen_at := now }
      (some node, { nodes := db.nodes ++ [node], nextId := db.nextId + 1 })

/-- Well-formedness of the node table: distinct primary keys, all below the
autoincrement counter. -/
def WFdb (db : KnowledgeDB) : Prop :=
  (db.nodes.map KnowledgeNode.id).Nodup ∧ ∀ n ∈ db.nodes, n.id < db.nextId

instance : DecidablePred WFdb := fun db => by
  unfold WFdb; infer_instance

/-- The node created by the `else` branch of `get_or_create_knowledge_node`. -/
def createdNode (db : KnowledgeDB) (now : Nat) (owner_user_id : Int)
    (subject name kind : List Char) : KnowledgeNode :=
  { id := db.nextId, user_id := owner_user_id,
    subject := normalize_subject (some subject),
    name := normalize_concept_name name,
    kind := if kind = [] then kindConcept else kind,
    created_at := now, last_seen_at := now }

/-- The in-place update applied to a found node (bump `last_seen_at`, possibly
upgrade a generic 'concept' kind). -/
def foundUpdate (node : KnowledgeNode) (now : Nat) (kind : List Char) : KnowledgeNode :=
  { node with
    last_seen_at := now
    kind := if kind ≠ [] ∧ node.kind = kindConcept ∧ kind ≠ kindConcept then kind
            else node.kind }

lemma get_or_create_eq_found {db : KnowledgeDB} {now : Nat} {owner : Int}
    {subject name kind : List Char} {node : KnowledgeNode}
    (hname : normalize_concept_name name ≠ [])
    (hfind : db.nodes.find? (nodeMatches owner (normalize_subject (some subject))
      (normalize_concept_name name)) = some node) :
    get_or_create_knowledge_node db now owner subject name kind =
      (some (foundUpdate node now kind),
       { db with nodes := db.nodes.map (fun m =>
          if m.id = node.id then foundUpdate node now kind else m) }) := by
  unfold get_or_create_knowledge_node foundUpdate
  rw [if_neg hname, hfind]

lemma get_or_create_eq_new {db : KnowledgeDB} {now : Nat} {owner : Int}
    {subject name kind : List Char}
    (hname : normalize_concept_name name ≠ [])
    (hfind : db.nodes.find? (nodeMatches owner (normalize_subject (some subject))
      (normalize_concept_name name)) = none) :
    get_or_create_knowledge_node db now owner subject name kind =
      (some (createdNode db now owner subject name kind),
       { nodes := db.nodes ++ [createdNode db now owner subject name kind],
         nextId := db.nextId + 1 }) := by
  unfold get_or_create_knowledge_node createdNode
  rw [if_neg hname, hfind]

lemma find?_replace_nodup (p : KnowledgeNode → Bool) (l : List KnowledgeNode)
    (n0 r : KnowledgeNode) (hfind : l.find? p = some n0)
    (hp : p r = true) (hnd : (l.map KnowledgeNode.id).Nodup) :
    (l.map (fun m => if m.id = n0.id then r else m)).find? p = some r := by
  induction l with
  | nil => simp at hfind
  | cons a t ih =>
    rw [List.map_cons] at *
    rw [List.nodup_cons] at hnd
    by_cases hpa : p a
    · rw [List.find?_cons_of_pos _ hpa] at hfind
      have ha : a = n0 := by simpa using hfind
      simp only [ha, if_pos]
      exact List.find?_cons_of_pos _ hp
    · rw [List.find?_cons_of_neg _ hpa] at hfind
      have hmem : n0 ∈ t := List.mem_of_find?_eq_some hfind
      have haid : ¬(a.id = n0.id) := by
        intro hcon
        exact hnd.1 (hcon ▸ List.mem_map_of_mem KnowledgeNode.id hmem)
      simp only [haid, if_neg, ite_false]
      rw [List.find?_cons_of_neg _ hpa]
      exact ih hfind hnd.2

/-- C6: calling `get_or_create_knowledge_node` twice sequentially with
identical (owner, subject, name) arguments (and a non-empty normalized name)
returns a node with the same id both times; the second call leaves
`created_at` unchanged and advances `last_seen_at` (from t1 to t2). -/
theorem get_or_create_upsert (db : KnowledgeDB) (t1 t2 : Nat) (owner : Int)
    (subject name kind : List Char)
    (hwf : WFdb db) (hname : normalize_concept_name name ≠ []) (ht : t1 < t2) :
    ∃ n1 db1 n2 db2,
      get_or_create_knowledge_node db t1 owner subject name kind = (some n1, db1) ∧
      get_or_create_knowledge_node db1 t2 owner subject name kind = (some n2, db2) ∧
      n2.id = n1.id ∧ n2.created_at = n1.created_at ∧
      n1.last_seen_at = t1 ∧ n2.last_seen_at = t2 ∧
      n1.last_seen_at < n2.last_seen_at := by
  cases hfind : db.nodes.find? (nodeMatches owner (normalize_subject (some subject))
      (normalize_concept_name name)) with
  | none =>
    have h1 := @get_or_create_eq_new db t1 owner subject name kind hname hfind
    have hp1 : nodeMatches owner (normalize_subject (some subject))
        (normalize_concept_name name) (createdNode db t1 owner subject name kind) = true := by
      simp [nodeMatches, createdNode]
    have hfind2 : (db.nodes ++ [createdNode db t1 owner subject name kind]).find?
        (nodeMatches owner (normalize_subject (some subject))
          (normalize_concept_name name)) = some (createdNode db t1 owner subject name kind) := by
      rw [List.find?_append, hfind]
      simp [List.find?_cons, hp1]
    have h2 := @get_or_create_eq_found
      ⟨db.nodes ++ [createdNode db t1 owner subject name kind], db.nextId + 1⟩
      t2 owner subject name kind (createdNode db t1 owner subject name kind) hname hfind2
    exact ⟨_, _, _, _, h1, h2, rfl, rfl, rfl, rfl, ht⟩
  | some n0 =>
    have hp0 : nodeMatches owner (normalize_subject (some subject))
        (normalize_concept_name name) n0 = true := List.find?_some hfind
    have h1 := @get_or_create_eq_found db t1 owner subject name kind n0 hname hfind
    have hp1 : nodeMatches owner (normalize_subject (some subject))
        (normalize_concept_name name) (foundUpdate n0 t1 kind) = true := by
      simpa [nodeMatches, foundUpdate] using hp0
    have hfind2 : (db.nodes.map (fun m =>
        if m.id = n0.id then foundUpdate n0 t1 kind else m)).find?
        (nodeMatches owner (normalize_subject (some subject))
          (normalize_concept_name name)) = some (foundUpdate n0 t1 kind) :=
      find?_replace_nodup _ _ n0 _ hfind hp1 hwf.1
    have h2 := @get_or_create_eq_found
      ⟨db.nodes.map (fun m => if m.id = n0.id then foundUpdate n0 t1 kind else m), db.nextId⟩
      t2 owner subject name kind (foundUpdate n0 t1 kind) hname hfind2
    exact ⟨_, _, _, _, h1, h2, rfl, rfl, rfl, rfl, ht⟩

/-- C6 witness: the upsert theorem at a concrete empty table. -/
theorem get_or_create_upsert_witness :
    WFdb ⟨[], 1⟩ ∧ normalize_concept_name ("函数".data) ≠ [] ∧ 0 < 1 ∧
    (∃ n1 db1 n2 db2,
      get_or_create_knowledge_node ⟨[], 1⟩ 0 1 ("数学".data) ("函数".data) kindConcept =
        (some n1, db1) ∧
      get_or_create_knowledge_node db1 1 1 ("数学".data) ("函数".data) kindConcept =
        (some n2, db2) ∧
      n2.id = n1.id ∧ n2.created_at = n1.created_at ∧
      n1.last_seen_at = 0 ∧ n2.last_seen_at = 1 ∧
      n1.last_seen_at < n2.last_seen_at) :=
  ⟨by decide, by decide, by decide,
    get_or_create_upsert ⟨[], 1⟩ 0 1 1 ("数学".data) ("函数".data) kindConcept
      (by decide) (by decide) (by decide)⟩

/-- C10: an existing node's kind changes only by upgrading the generic
'concept' to a different truthy kind; a node whose kind is not 'concept'
(e.g. 'chapter', 'method', 'mistake') keeps its kind across every
`get_or_create_knowledge_node` call. -/
theorem get_or_create_kind_stable (db : KnowledgeDB) (now : Nat) (owner : Int)
    (subject name kind : List Char) (hwf : WFdb db)
    (m : KnowledgeNode) (hm : m ∈ db.nodes) (m' : KnowledgeNode)
    (hm' : m' ∈ (get_or_create_knowledge_node db now owner subject name kind).2.nodes)
    (hid : m'.id = m.id) :
    (m.kind ≠ kindConcept → m'.kind = m.kind) ∧
    (m'.kind = m.kind ∨
      (m.kind = kindConcept ∧ kind ≠ [] ∧ kind ≠ kindConcept ∧ m'.kind = kind)) := by
  have hinj := List.inj_on_of_nodup_map hwf.1
  have main : m'.kind = m.kind ∨
      (m.kind = kindConcept ∧ kind ≠ [] ∧ kind ≠ kindConcept ∧ m'.kind = kind) := by
    by_cases hname : normalize_concept_name name = []
    · unfold get_or_create_knowledge_node at hm'
      rw [if_pos hname] at hm'
      left
      rw [hinj hm' hm hid]
    · cases hfind : db.nodes.find? (nodeMatches owner (normalize_subject (some subject))
          (normalize_concept_name name)) with
      | some n0 =>
        rw [get_or_create_eq_found hname hfind] at hm'
        simp only [List.mem_map] at hm'
        obtain ⟨x, hx, hfx⟩ := hm'
        have hn0 : n0 ∈ db.nodes := List.mem_of_find?_eq_some hfind
        by_cases hxid : x.id = n0.id
        · rw [if_pos hxid] at hfx
          have hmn0 : m = n0 := by
            apply hinj hm hn0
            rw [← hid, ← hfx]
            rfl
          by_cases hcond : kind ≠ [] ∧ n0.kind = kindConcept ∧ kind ≠ kindConcept
          · right
            refine ⟨by rw [hmn0]; exact hcond.2.1, hcond.1, hcond.2.2, ?_⟩
            rw [← hfx]
            simp [foundUpdate, hcond]
          · left
            rw [← hfx, hmn0]
            simp [foundUpdate, hcond]
        · rw [if_neg hxid] at hfx
          left
          rw [← hfx] at hid ⊢
          rw [hinj hx hm hid]
      | none =>
        rw [get_or_create_eq_new hname hfind] at hm'
        rw [List.mem_append] at hm'
        cases hm' with
        | inl hin => left; rw [hinj hin hm hid]
        | inr hnew =>
          exfalso
          have hmn : m' = createdNode db now owner subject name kind := by simpa using hnew
          have : m'.id = db.nextId := by rw [hmn]; rfl
          rw [hid] at this
          exact absurd (this ▸ hwf.2 m hm) (by omega)
  refine ⟨?_, main⟩
  intro hne
  cases main with
  | inl h => exact h
  | inr h => exact absurd h.1 hne

/-- C10 witness: a 'chapter' node keeps its kind when re-upserted with kind
'concept'. -/
theorem get_or_create_kind_stable_witness :
    WFdb ⟨[⟨1, 1, "数学".data, "函数".data, kindChapter, 0, 0⟩], 2⟩ ∧
    (⟨1, 1, "数学".data, "函数".data, kindChapter, 0, 0⟩ : KnowledgeNode) ∈
      (⟨[⟨1, 1, "数学".data, "函数".data, kindChapter, 0, 0⟩], 2⟩ : KnowledgeDB).nodes ∧
    (⟨1, 1, "数学".data, "函数".data, kindChapter, 0, 5⟩ : KnowledgeNode) ∈
      (get_or_create_knowledge_node ⟨[⟨1, 1, "数学".data, "函数".data, kindChapter, 0, 0⟩], 2⟩
        5 1 ("数学".data) ("函数".data) kindConcept).2.nodes ∧
    ((⟨1, 1, "数学".data, "函数".data, kindChapter, 0, 5⟩ : KnowledgeNode).kind ≠ kindConcept →
      (⟨1, 1, "数学".data, "函数".data, kindChapter, 0, 5⟩ : KnowledgeNode).kind = kindChapter) :=
  ⟨by decide, by decide, by decide,
    fun h => ((get_or_create_kind_stable
      ⟨[⟨1, 1, "数学".data, "函数".data, kindChapter, 0, 0⟩], 2⟩ 5 1
      ("数学".data) ("函数".data) kindConcept (by decide)
      ⟨1, 1, "数学".data, "函数".data, kindChapter, 0, 0⟩ (by decide)
      ⟨1, 1, "数学".data, "函数".data, kindChapter, 0, 5⟩ (by decide) rfl).1 h)⟩

/-- Dynamically-typed Python/JSON values as handled by the lenient JSON
loader (`_loads_lenient_object`) and the extraction code. -/
inductive PyVal where
  | str : List Char → PyVal
  | num : Int → PyVal
  | boolean : Bool → PyVal
  | null : PyVal
  | list : List PyVal → PyVal
  | dict : List (List Char × PyVal) → PyVal

/-- Python truthiness. -/
def pyTruthy : PyVal → Bool
  | .str s => !s.isEmpty
  | .num n => n != 0
  | .boolean b => b
  | .null => false
  | .list xs => !xs.isEmpty
  | .dict ds => !ds.isEmpty

mutual
/-- Python `repr()` as used inside container `str()`; escaping inside string
reprs is elided, which no claim depends on. -/
def pyRepr : PyVal → List Char
  | .str s => '\'' :: (s ++ ['\''])
  | .num n => (toString n).data
  | .boolean b => if b then "True".data else "False".data
  | .null => "None".data
  | .list xs => '[' :: (pyReprJoin xs ++ [']'])
  | .dict ds => Char.ofNat 123 :: (pyReprDictJoin ds ++ [Char.ofNat 125])

def pyReprJoin : List PyVal → List Char
  | [] => []
  | [x] => pyRepr x
  | x :: y :: rest => pyRepr x ++ ", ".data ++ pyReprJoin (y :: rest)

def pyReprDictJoin : List (List Char × PyVal) → List Char
  | [] => []
  | [(k, v)] => ('\'' :: (k ++ ['\''])) ++ ": ".data ++ pyRepr v
  | (k, v) :: e :: rest =>
    ('\'' :: (k ++ ['\''])) ++ ": ".data ++ pyRepr v ++ ", ".data ++ pyReprDictJoin (e :: rest)
end

/-- Python `str()`. -/
def pyStr : PyVal → List Char
  | .str s => s
  | .num n => (toString n).data
  | .boolean b => if b then "True".data else "False".data
  | .null => "None".data
  | .list xs => pyRepr (.list xs)
  | .dict ds => pyRepr (.dict ds)

/-- `str(value or '')` on an optional value (`dict.get` result). -/
def pyStrOr : Option PyVal → List Char
  | some v => if pyTruthy v then pyStr v else []
  | none => []

/-- `_normalize_concept_name(value)` on a dynamically-typed value:
the Python function first runs `str(value or '')`. -/
def normalize_concept_val (v : PyVal) : List Char :=
  normalize_concept_name (pyStrOr (some v))

/-- Python `dict.get` (association-list lookup by key). -/
def pyDictGet (d : List (List Char × PyVal)) (key : List Char) : Option PyVal :=
  alistGet d key

/-- A note-assistant row: the fields read by the knowledge subsystem. -/
structure NoteAssistantEntry where
  user_id : Int
  subject : Option (List Char)
  title : List Char
  summary_json : List Char
  transcript_text : List Char

/-- An error-book row: the fields read by the knowledge subsystem. -/
structure ErrorBookEntry where
  user_id : Int
  subject : Option (List Char)
  title : List Char
  ai_analysis : List Char
  ocr_text : List Char

/-- The shared normalize-and-filter loop of the extractors: keep `f t` for
each element unless it is empty (`if n: concepts.append(n)`). -/
def collectNonempty (f : PyVal → List Char) : List PyVal → List (List Char)
  | [] => []
  | t :: rest =>
    let n := f t
    if n = [] then collectNonempty f rest else n :: collectNonempty f rest

/-- `_loads_lenient_object(entry.summary_json or '') if (entry.summary_json
or '').strip() else None`; the lenient JSON parser itself is an external
text-processing utility, passed in as `loads`. -/
def noteSummaryObj (loads : List Char → Option PyVal) (entry : NoteAssistantEntry) :
    Option PyVal :=
  if stripWhile pyIsSpace entry.summary_json = [] then none else loads entry.summary_json

/-- Heading of a summary point: text before the first full-width colon
(stripped) when one is present, else the first 12 characters. -/
def pointHead (s : List Char) : List Char :=
  if s.any (fun c => c == '：') then stripWhile pyIsSpace (s.takeWhile (fun c => c != '：'))
  else s.take 12

/-- One summary-point candidate: `s = str(p or '').strip(); if not s:
continue; ... _normalize_concept_name(head)`. -/
def notePointCandidate (p : PyVal) : List Char :=
  let s := stripWhile pyIsSpace (pyStrOr (some p))
  if s = [] then [] else normalize_concept_name (pointHead s)

/-- The candidate concept list built by `_extract_note_concepts` before
dedup/cap: key terms preferred, summary-point headings as fallback. -/
def noteConceptCandidates (loads : List Char → Option PyVal)
    (entry : NoteAssistantEntry) : List (List Char) :=
  match noteSummaryObj loads entry with
  | some (.dict d) =>
    let c1 := match pyDictGet d ("key_terms".data) with
      | some (.list ts) => collectNonempty normalize_concept_val ts
      | _ => []
    if c1 = [] then
      match pyDictGet d ("summary_points".data) with
      | some (.list ps) => collectNonempty notePointCandidate ps
      | _ => []
    else c1
  | _ => []

/-- `_extract_note_concepts`: (normalized subject, ordered unique concept
names capped at 16). -/
def extract_note_concepts (loads : List Char → Option PyVal)
    (entry : NoteAssistantEntry) : List Char × List (List Char) :=
  (normalize_subject entry.subject, (dedupFirst (noteConceptCandidates loads entry)).take 16)

/-- `_extract_first_json_object(entry.ai_analysis or '')` then the lenient
parse; the brace-depth scanner is external, passed in as `scanner`
(`if extracted` is false both for `None` and for an empty string). -/
def errorParsed (scanner : List Char → Option (List Char))
    (loads : List Char → Option PyVal) (entry : ErrorBookEntry) : Option PyVal :=
  match scanner entry.ai_analysis with
  | some e => if e = [] then none else loads e
  | none => none

/-- One mistakes-list candidate: non-dict entries are skipped, otherwise the
normalized 'concept' field. -/
def errorMistakeCandidate (m : PyVal) : List Char :=
  match m with
  | .dict md => normalize_concept_name (pyStrOr (pyDictGet md ("concept".data)))
  | _ => []

/-- The candidate concept list built by `_extract_error_concepts` before
dedup/cap: mistakes' concepts followed by key points. -/
def errorConceptCandidates (scanner : List Char → Option (List Char))
    (loads : List Char → Option PyVal) (entry : ErrorBookEntry) : List (List Char) :=
  match errorParsed scanner loads entry with
  | some (.dict d) =>
    (match pyDictGet d ("mistakes".data) with
      | some (.list ms) => collectNonempty errorMistakeCandidate ms
      | _ => []) ++
    (match pyDictGet d ("key_points".data) with
      | some (.list kps) => collectNonempty normalize_concept_val kps
      | _ => [])
  | _ => []

/-- `_extract_error_concepts`: (normalized subject, ordered unique concept
names capped at 16). -/
def extract_error_concepts (scanner : List Char → Option (List Char))
    (loads : List Char → Option PyVal) (entry : ErrorBookEntry) :
    List Char × List (List Char) :=
  (normalize_subject entry.subject,
   (dedupFirst (errorConceptCandidates scanner loads entry)).take 16)

example :
    (extract_note_concepts
      (fun _ => some (.dict [("key_terms".data, .list [.str "二次函数".data, .str "判别式".data])]))
      ⟨1, some "数学".data, "t".data, "x".data, []⟩).2 =
    ["二次函数".data, "判别式".data] := by decide

lemma collectNonempty_ne_nil (f : PyVal → List Char) (l : List PyVal) :
    ∀ c ∈ collectNonempty f l, c ≠ [] := by
  induction l with
  | nil => simp [collectNonempty]
  | cons t rest ih =>
    intro c hc
    rw [collectNonempty] at hc
    by_cases hn : f t = []
    · simp only [hn, if_pos] at hc
      exact ih c hc
    · simp only [hn, if_neg, ite_false] at hc
      rcases List.mem_cons.mp hc with h | h
      · rw [h]; exact hn
      · exact ih c h

lemma dedupFirst_sublist {α : Type} [DecidableEq α] (l : List α) :
    List.Sublist (dedupFirst l) l := by
  induction l with
  | nil => simp [dedupFirst]
  | cons x xs ih =>
    rw [dedupFirst]
    exact ((List.filter_sublist (dedupFirst xs)).trans ih).cons₂ x

lemma dedupFirst_nodup {α : Type} [DecidableEq α] (l : List α) : (dedupFirst l).Nodup := by
  induction l with
  | nil => simp [dedupFirst]
  | cons x xs ih =>
    rw [dedupFirst, List.nodup_cons]
    constructor
    · intro hmem
      have := List.of_mem_filter hmem
      simp at this
    · exact ih.sublist (List.filter_sublist (dedupFirst xs))

lemma dedupTake_contract (l : List (List Char)) (h : ∀ c ∈ l, c ≠ []) :
    ((dedupFirst l).take 16).Nodup ∧
    (∀ c ∈ (dedupFirst l).take 16, c ≠ []) ∧
    ((dedupFirst l).take 16).length ≤ 16 ∧
    List.Sublist ((dedupFirst l).take 16) l := by
  have hsub : List.Sublist ((dedupFirst l).take 16) l :=
    (List.take_sublist 16 (dedupFirst l)).trans (dedupFirst_sublist l)
  refine ⟨(dedupFirst_nodup l).sublist (List.take_sublist 16 (dedupFirst l)),
    fun c hc => h c (hsub.mem hc), ?_, hsub⟩
  rw [List.length_take]
  omega

lemma noteConceptCandidates_ne_nil (loads : List Char → Option PyVal)
    (entry : NoteAssistantEntry) :
    ∀ c ∈ noteConceptCandidates loads entry, c ≠ [] := by
  unfold noteConceptCandidates
  cases noteSummaryObj loads entry with
  | none => simp
  | some v =>
    cases v with
    | dict d =>
      simp only
      by_cases h1 : (match pyDictGet d ("key_terms".data) with
        | some (.list ts) => collectNonempty normalize_concept_val ts
        | _ => []) = []
      · rw [if_pos h1]
        cases hp : pyDictGet d ("summary_points".data) with
        | none => simp
        | some w =>
          cases w with
          | list ps => exact collectNonempty_ne_nil _ _
          | str s => simp
          | num n => simp
          | boolean b => simp
          | null => simp
          | dict e => simp
      · rw [if_neg h1]
        cases hk : pyDictGet d ("key_terms".data) with
        | none => simp
        | some w =>
          cases w with
          | list ts => exact collectNonempty_ne_nil _ _
          | str s => simp
          | num n => simp
          | boolean b => simp
          | null => simp
          | dict e => simp
    | str s => simp
    | num n => simp
    | boolean b => simp
    | null => simp
    | list xs => simp

lemma errorConceptCandidates_ne_nil (scanner : List Char → Option (List Char))
    (loads : List Char → Option PyVal) (entry : ErrorBookEntry) :
    ∀ c ∈ errorConceptCandidates scanner loads entry, c ≠ [] := by
  unfold errorConceptCandidates
  cases errorParsed scanner loads entry with
  | none => simp
  | some v =>
    cases v with
    | dict d =>
      intro c hc
      simp only [List.mem_append] at hc
      rcases hc with h | h
      · revert h
        cases hm : pyDictGet d ("mistakes".data) with
        | none => simp
        | some w =>
          cases w with
          | list ms => exact fun h => collectNonempty_ne_nil _ _ c h
          | str s => simp
          | num n => simp
          | boolean b => simp
          | null => simp
          | dict e => simp
      · revert h
        cases hk : pyDictGet d ("key_points".data) with
        | none => simp
        | some w =>
          cases w with
          | list kps => exact fun h => collectNonempty_ne_nil _ _ c h
          | str s => simp
          | num n => simp
          | boolean b => simp
          | null => simp
          | dict e => simp
    | str s => simp
    | num n => simp
    | boolean b => simp
    | null => simp
    | list xs => simp

/-- C9: for every source record (and every behaviour of the external JSON
scanner/parser), both concept extractors return a list with no duplicates, no
empty names, at most 16 entries, and in an order that is a subsequence of the
candidate order (first appearance preserved). -/
theorem extractor_contract (loads : List Char → Option PyVal)
    (scanner : List Char → Option (List Char))
    (note : NoteAssistantEntry) (err : ErrorBookEntry) :
    ((extract_note_concepts loads note).2.Nodup ∧
     (∀ c ∈ (extract_note_concepts loads note).2, c ≠ []) ∧
     (extract_note_concepts loads note).2.length ≤ 16 ∧
     List.Sublist (extract_note_concepts loads note).2 (noteConceptCandidates loads note)) ∧
    ((extract_error_concepts scanner loads err).2.Nodup ∧
     (∀ c ∈ (extract_error_concepts scanner loads err).2, c ≠ []) ∧
     (extract_error_concepts scanner loads err).2.length ≤ 16 ∧
     List.Sublist (extract_error_concepts scanner loads err).2
       (errorConceptCandidates scanner loads err)) :=
  ⟨dedupTake_contract _ (noteConceptCandidates_ne_nil loads note),
   dedupTake_contract _ (errorConceptCandidates_ne_nil scanner loads err)⟩

/-- The co-occurrence adjacency map `related: dict[int, dict[int, int]]`,
as nested insertion-ordered association lists. -/
abbrev AdjMap := List (Nat × List (Nat × Nat))

/-- One increment `related.setdefault(a, {})[b] =
related.setdefault(a, {}).get(b, 0) + 1`. -/
def bumpRelated (m : AdjMap) (a b : Nat) : AdjMap :=
  let inner := (alistGet m a).getD []
  alistSet m a (alistSet inner b ((alistGet inner b).getD 0 + 1))

/-- All ordered index pairs (i < j) of a list, in the double-loop order of
`add_pairs`. -/
def allPairs : List Nat → List (Nat × Nat)
  | [] => []
  | x :: xs => xs.map (fun y => (x, y)) ++ allPairs xs

/-- `add_pairs(node_ids)` from `_build_cooccurrence_related`: keep truthy ids,
deduplicate preserving first occurrence, and for every unordered pair bump the
weight in both directions; fewer than 2 distinct ids contribute nothing. -/
def add_pairs (m : AdjMap) (node_ids : List Nat) : AdjMap :=
  let uniq := dedupFirst (node_ids.filter (fun x => x != 0))
  if uniq.length < 2 then m
  else (allPairs uniq).foldl
    (fun acc pr => bumpRelated (bumpRelated acc pr.1 pr.2) pr.2 pr.1) m

/-- `related.get(a, {}).get(b)`: presence and value of a weight entry. -/
def adjWeight (m : AdjMap) (a b : Nat) : Option Nat :=
  match alistGet m a with
  | some inner => alistGet inner b
  | none => none

/-- Materialize every extracted concept as a node and collect ids (the inner
loop shared by both halves of `_build_cooccurrence_related`). -/
def materializeIds (now : Nat) (owner : Int) (subj : List Char) :
    KnowledgeDB → List (List Char) → List Nat × KnowledgeDB
  | db, [] => ([], db)
  | db, c :: rest =>
    match get_or_create_knowledge_node db now owner subj c kindConcept with
    | (some node, db') =>
      let r := materializeIds now owner subj db' rest
      (node.id :: r.1, r.2)
    | (none, db') => materializeIds now owner subj db' rest

/-- The notes half of `_build_cooccurrence_related`. -/
def cooccurNotesLoop (loads : List Char → Option PyVal) (now : Nat) (owner : Int) :
    List NoteAssistantEntry → AdjMap × KnowledgeDB → AdjMap × KnowledgeDB
  | [], st => st
  | n :: rest, (m, db) =>
    let sc := extract_note_concepts loads n
    let r := materializeIds now owner sc.1 db sc.2
    cooccurNotesLoop loads now owner rest (add_pairs m r.1, r.2)

/-- The errors half of `_build_cooccurrence_related`. -/
def cooccurErrorsLoop (scanner : List Char → Option (List Char))
    (loads : List Char → Option PyVal) (now : Nat) (owner : Int) :
    List ErrorBookEntry → AdjMap × KnowledgeDB → AdjMap × KnowledgeDB
  | [], st => st
  | e :: rest, (m, db) =>
    let sc := extract_error_concepts scanner loads e
    let r := materializeIds now owner sc.1 db sc.2
    cooccurErrorsLoop scanner loads now owner rest (add_pairs m r.1, r.2)

/-- `_build_cooccurrence_related(owner_user_id)`: fold the recent notes, then
the recent errors (the bounded recent windows, already fetched in creation
order, are passed in as lists). -/
def build_cooccurrence_related (loads : List Char → Option PyVal)
    (scanner : List Char → Option (List Char)) (now : Nat) (owner_user_id : Int)
    (db : KnowledgeDB) (notes : List NoteAssistantEntry) (errors : List ErrorBookEntry) :
    AdjMap × KnowledgeDB :=
  cooccurErrorsLoop scanner loads now owner_user_id errors
    (cooccurNotesLoop loads now owner_user_id notes ([], db))

lemma alistGet_set {κ β : Type} [DecidableEq κ] (l : List (κ × β)) (k k' : κ) (v : β) :
    alistGet (alistSet l k v) k' = if k' = k then some v else alistGet l k' := by
  induction l with
  | nil =>
    simp only [alistSet, alistGet]
    by_cases h : k = k'
    · rw [if_pos h, if_pos h.symm]
    · rw [if_neg h, if_neg (fun hc => h hc.symm)]
  | cons a t ih =>
    obtain ⟨ak, aw⟩ := a
    rw [alistSet]
    by_cases hak : ak = k
    · subst hak
      rw [if_pos rfl, alistGet, alistGet]
      by_cases hk : ak = k'
      · rw [if_pos hk, if_pos hk.symm]
      · rw [if_neg hk, if_neg (fun hc => hk hc.symm), if_neg hk]
    · rw [if_neg hak, alistGet, alistGet]
      by_cases hka : ak = k'
      · rw [if_pos hka, if_neg (fun hc : k' = k => hak (hka.trans hc)), if_pos hka]
      · rw [if_neg hka, if_neg hka, ih]

lemma adjWeight_bump (m : AdjMap) (a b x y : Nat) :
    adjWeight (bumpRelated m a b) x y =
      if x = a ∧ y = b then some ((adjWeight m a b).getD 0 + 1)
      else adjWeight m x y := by
  unfold bumpRelated adjWeight
  rw [alistGet_set]
  by_cases hx : x = a
  · simp only [hx, if_pos, ite_true, true_and]
    rw [alistGet_set]
    by_cases hy : y = b
    · simp only [hy, if_pos, ite_true]
      cases hma : alistGet m a with
      | none => simp [alistGet]
      | some inner => simp
    · simp only [hy, if_neg, ite_false]
      cases hma : alistGet m a with
      | none => simp [alistGet]
      | some inner => simp
  · simp [hx]

lemma adjWeight_bumpBoth (m : AdjMap) (a b x y : Nat) :
    adjWeight (bumpRelated (bumpRelated m a b) b a) x y =
      if x = b ∧ y = a then some ((adjWeight (bumpRelated m a b) b a).getD 0 + 1)
      else if x = a ∧ y = b then some ((adjWeight m a b).getD 0 + 1)
      else adjWeight m x y := by
  rw [adjWeight_bump]
  by_cases h1 : x = b ∧ y = a
  · simp [h1]
  · rw [if_neg h1, adjWeight_bump, if_neg h1]

/-- Symmetry of the adjacency map. -/
def AdjSym (m : AdjMap) : Prop := ∀ a b, adjWeight m a b = adjWeight m b a

lemma adjSym_bumpBoth (m : AdjMap) (a b : Nat) (h : AdjSym m) :
    AdjSym (bumpRelated (bumpRelated m a b) b a) := by
  intro x y
  rw [adjWeight_bumpBoth, adjWeight_bumpBoth]
  by_cases hab : a = b
  · subst hab
    by_cases hx : x = a ∧ y = a
    · obtain ⟨h1, h2⟩ := hx; subst h1; subst h2; rfl
    · have hx' : ¬(y = a ∧ x = a) := fun hc => hx ⟨hc.2, hc.1⟩
      rw [if_neg hx, if_neg hx, if_neg hx', if_neg hx']
      exact h x y
  · have hAB : (adjWeight (bumpRelated m a b) b a).getD 0 =
        (adjWeight m a b).getD 0 := by
      rw [adjWeight_bump, if_neg (fun hc => hab hc.2), h b a]
    by_cases h1 : x = b ∧ y = a
    · obtain ⟨hxb, hya⟩ := h1; subst hxb; subst hya
      rw [if_pos ⟨rfl, rfl⟩, if_neg (fun hc => hab hc.1), if_pos ⟨rfl, rfl⟩, hAB]
    · by_cases h2 : x = a ∧ y = b
      · obtain ⟨hxa, hyb⟩ := h2; subst hxa; subst hyb
        rw [if_neg (fun hc => hab hc.1), if_pos ⟨rfl, rfl⟩, if_pos ⟨rfl, rfl⟩, hAB]
      · have h1' : ¬(y = a ∧ x = b) := fun hc => h1 ⟨hc.2, hc.1⟩
        have h2' : ¬(y = b ∧ x = a) := fun hc => h2 ⟨hc.2, hc.1⟩
        rw [if_neg h1, if_neg h2, if_neg h2', if_neg h1']
        exact h x y

lemma adjSym_foldPairs (prs : List (Nat × Nat)) (m : AdjMap) (h : AdjSym m) :
    AdjSym (prs.foldl
      (fun acc pr => bumpRelated (bumpRelated acc pr.1 pr.2) pr.2 pr.1) m) := by
  induction prs generalizing m with
  | nil => exact h
  | cons pr rest ih => exact ih _ (adjSym_bumpBoth m pr.1 pr.2 h)

lemma adjSym_add_pairs (m : AdjMap) (ids : List Nat) (h : AdjSym m) :
    AdjSym (add_pairs m ids) := by
  unfold add_pairs
  by_cases hlen : (dedupFirst (ids.filter (fun x => x != 0))).length < 2
  · simpa [hlen] using h
  · simp only [hlen, ite_false, if_neg]
    exact adjSym_foldPairs _ m h

lemma adjSym_notesLoop (loads : List Char → Option PyVal) (now : Nat) (owner : Int)
    (notes : List NoteAssistantEntry) (st : AdjMap × KnowledgeDB) (h : AdjSym st.1) :
    AdjSym (cooccurNotesLoop loads now owner notes st).1 := by
  induction notes generalizing st with
  | nil => exact h
  | cons n rest ih =>
    obtain ⟨m, db⟩ := st
    exact ih _ (adjSym_add_pairs _ _ h)

lemma adjSym_errorsLoop (scanner : List Char → Option (List Char))
    (loads : List Char → Option PyVal) (now : Nat) (owner : Int)
    (errors : List ErrorBookEntry) (st : AdjMap × KnowledgeDB) (h : AdjSym st.1) :
    AdjSym (cooccurErrorsLoop scanner loads now owner errors st).1 := by
  induction errors generalizing st with
  | nil => exact h
  | cons e rest ih =>
    obtain ⟨m, db⟩ := st
    exact ih _ (adjSym_add_pairs _ _ h)

/-- C7: the co-occurrence adjacency map built for any owner is symmetric —
an (a,b) weight entry is present iff the (b,a) entry is present and the two
values agree — and a record contributing fewer than 2 distinct truthy node
ids contributes no pairs. -/
theorem cooccurrence_symmetric (loads : List Char → Option PyVal)
    (scanner : List Char → Option (List Char)) (now : Nat) (owner : Int)
    (db : KnowledgeDB) (notes : List NoteAssistantEntry) (errors : List ErrorBookEntry) :
    (∀ a b : Nat, a ≠ b →
      adjWeight (build_cooccurrence_related loads scanner now owner db notes errors).1 a b =
        adjWeight (build_cooccurrence_related loads scanner now owner db notes errors).1 b a) ∧
    (∀ (m : AdjMap) (ids : List Nat),
      (dedupFirst (ids.filter (fun x => x != 0))).length < 2 → add_pairs m ids = m) := by
  constructor
  · intro a b _
    have hbase : AdjSym ([] : AdjMap) := by
      intro u v
      simp [adjWeight, alistGet]
    exact adjSym_errorsLoop scanner loads now owner errors _
      (adjSym_notesLoop loads now owner notes ([], db) hbase) a b
  · intro m ids hlen
    simp [add_pairs, hlen]

/-- C7 witness: the symmetry theorem instantiated on a concrete build
(one note with two concepts), plus the fewer-than-2-ids case. -/
theorem cooccurrence_symmetric_witness :
    ((1 : Nat) ≠ 2 ∧
      adjWeight (build_cooccurrence_related
        (fun _ => some (.dict [("key_terms".data, .list [.str "甲".data, .str "乙".data])]))
        (fun _ => none) 0 1 ⟨[], 1⟩ [⟨1, some "数学".data, "t".data, "x".data, []⟩] []).1 1 2 =
      adjWeight (build_cooccurrence_related
        (fun _ => some (.dict [("key_terms".data, .list [.str "甲".data, .str "乙".data])]))
        (fun _ => none) 0 1 ⟨[], 1⟩ [⟨1, some "数学".data, "t".data, "x".data, []⟩] []).1 2 1) ∧
    ((dedupFirst (([7] : List Nat).filter (fun x => x != 0))).length < 2 ∧
      add_pairs [] [7] = []) :=
  ⟨⟨by decide,
    (cooccurrence_symmetric
      (fun _ => some (.dict [("key_terms".data, .list [.str "甲".data, .str "乙".data])]))
      (fun _ => none) 0 1 ⟨[], 1⟩ [⟨1, some "数学".data, "t".data, "x".data, []⟩] []).1 1 2
      (by decide)⟩,
   ⟨by decide,
    (cooccurrence_symmetric
      (fun _ => some (.dict [("key_terms".data, .list [.str "甲".data, .str "乙".data])]))
      (fun _ => none) 0 1 ⟨[], 1⟩ [⟨1, some "数学".data, "t".data, "x".data, []⟩] []).2 [] [7]
      (by decide)⟩⟩

/-- One row of the `knowledge_mastery` list built by
`_compute_dashboard_summary_payload`. -/
structure MasteryItem where
  node_id : Nat
  subject : List Char
  name : List Char
  mistake_count : Nat
  note_count : Nat
deriving DecidableEq

/-- Python string `<=` (lexicographic on code points). -/
def lexLe : List Char → List Char → Bool
  | [], _ => true
  | _ :: _, [] => false
  | a :: as, b :: bs => if a < b then true else if b < a then false else lexLe as bs

/-- The sort key `(-mistake_count, -note_count, name)` of the mastery ranking,
as a ≤ comparison. -/
def masteryLe (a b : MasteryItem) : Bool :=
  if a.mistake_count = b.mistake_count then
    (if a.note_count = b.note_count then lexLe a.name b.name
     else decide (b.note_count < a.note_count))
  else decide (b.mistake_count < a.mistake_count)

/-- The unsorted `knowledge_mastery` rows: per node, the mistake/note counts
looked up by (owner, normalized subject, normalized name), defaulting to 0. -/
def masteryItems (knowledge_nodes : List KnowledgeNode)
    (mistakeCounts noteCounts : List ((Int × List Char × List Char) × Nat)) :
    List MasteryItem :=
  knowledge_nodes.map (fun node =>
    { node_id := node.id, subject := node.subject, name := node.name,
      mistake_count := (alistGet mistakeCounts (node.user_id,
        normalize_subject (some node.subject), normalize_concept_name node.name)).getD 0,
      note_count := (alistGet noteCounts (node.user_id,
        normalize_subject (some node.subject), normalize_concept_name node.name)).getD 0 })

/-- Stable insertion of an element into a sorted list: placed before the first
element it compares ≤ to, so earlier-inserted equal elements keep their
relative order (the stability contract of Python's `list.sort`). -/
def insertSorted {α : Type} (le : α → α → Bool) (x : α) : List α → List α
  | [] => [x]
  | y :: ys => if le x y then x :: y :: ys else y :: insertSorted le x ys

/-- A stable sort by the comparison `le` (insertion sort). Python's
`list.sort(key=...)` is the stable sort by the key order, so, the key order
being total and transitive, it produces exactly this list. -/
def stableSort {α : Type} (le : α → α → Bool) : List α → List α
  | [] => []
  | x :: xs => insertSorted le x (stableSort le xs)

/-- `knowledge_mastery.sort(key=lambda x: (-mistake, -note, name))`. -/
def computeMasteryRanking (knowledge_nodes : List KnowledgeNode)
    (mistakeCounts noteCounts : List ((Int × List Char × List Char) × Nat)) :
    List MasteryItem :=
  stableSort masteryLe (masteryItems knowledge_nodes mistakeCounts noteCounts)

lemma insertSorted_perm {α : Type} (le : α → α → Bool) (x : α) (l : List α) :
    List.Perm (insertSorted le x l) (x :: l) := by
  induction l with
  | nil => exact List.Perm.refl _
  | cons y ys ih =>
    rw [insertSorted]
    by_cases h : le x y
    · rw [if_pos h]
    · rw [if_neg h]
      exact (ih.cons y).trans (List.Perm.swap x y ys)

lemma stableSort_perm {α : Type} (le : α → α → Bool) (l : List α) :
    List.Perm (stableSort le l) l := by
  induction l with
  | nil => exact List.Perm.refl _
  | cons x xs ih =>
    rw [stableSort]
    exact (insertSorted_perm le x (stableSort le xs)).trans (ih.cons x)

lemma mem_insertSorted {α : Type} (le : α → α → Bool) (x a : α) (l : List α) :
    a ∈ insertSorted le x l ↔ a = x ∨ a ∈ l := by
  rw [(insertSorted_perm le x l).mem_iff, List.mem_cons]

lemma insertSorted_pairwise {α : Type} (le : α → α → Bool)
    (htotal : ∀ a b, le a b || le b a)
    (htrans : ∀ a b c, le a b → le b c → le a c)
    (x : α) (l : List α) (hl : l.Pairwise (fun a b => le a b = true)) :
    (insertSorted le x l).Pairwise (fun a b => le a b = true) := by
  induction l with
  | nil => simp [insertSorted]
  | cons y ys ih =>
    rw [List.pairwise_cons] at hl
    rw [insertSorted]
    by_cases h : le x y
    · rw [if_pos h, List.pairwise_cons]
      refine ⟨?_, List.pairwise_cons.mpr hl⟩
      intro b hb
      rcases List.mem_cons.mp hb with hby | hbys
      · rw [hby]; exact h
      · exact htrans x y b h (hl.1 b hbys)
    · rw [if_neg h, List.pairwise_cons]
      refine ⟨?_, ih hl.2⟩
      intro b hb
      rcases (mem_insertSorted le x b ys).mp hb with hbx | hbys
      · rw [hbx]
        have := htotal x y
        rcases Bool.or_eq_true_iff.mp this with hc | hc
        · exact absurd hc h
        · exact hc
      · exact hl.1 b hbys

lemma stableSort_pairwise {α : Type} (le : α → α → Bool)
    (htotal : ∀ a b, le a b || le b a)
    (htrans : ∀ a b c, le a b → le b c → le a c) (l : List α) :
    (stableSort le l).Pairwise (fun a b => le a b = true) := by
  induction l with
  | nil => simp [stableSort]
  | cons x xs ih =>
    rw [stableSort]
    exact insertSorted_pairwise le htotal htrans x _ ih

lemma lexLe_total (a b : List Char) : lexLe a b || lexLe b a := by
  induction a generalizing b with
  | nil => simp [lexLe]
  | cons x xs ih =>
    cases b with
    | nil => simp [lexLe]
    | cons y ys =>
      rw [lexLe, lexLe]
      by_cases hxy : x < y
      · have : ¬(y < x) := by
          intro h
          exact absurd (lt_trans hxy h) (lt_irrefl x)
        simp [hxy, this]
      · by_cases hyx : y < x
        · simp [hxy, hyx]
        · simp only [hxy, hyx, ite_false, if_neg]
          exact ih ys

lemma char_eq_of_not_lt {x y : Char} (h1 : ¬x < y) (h2 : ¬y < x) : x = y :=
  le_antisymm (not_lt.mp h2) (not_lt.mp h1)

lemma lexLe_trans (a b c : List Char) (hab : lexLe a b) (hbc : lexLe b c) :
    lexLe a c := by
  induction a generalizing b c with
  | nil => rw [lexLe]
  | cons x xs ih =>
    cases b with
    | nil => rw [lexLe] at hab; exact absurd hab (by simp)
    | cons y ys =>
      cases c with
      | nil => rw [lexLe] at hbc; exact absurd hbc (by simp)
      | cons z zs =>
        rw [lexLe] at hab hbc
        rw [lexLe]
        by_cases hxy : x < y
        · by_cases hyz : y < z
          · rw [if_pos (lt_trans hxy hyz)]
          · by_cases hzy : z < y
            · rw [if_neg hyz, if_pos hzy] at hbc
              exact absurd hbc (by simp)
            · have heq : y = z := char_eq_of_not_lt hyz hzy
              subst heq
              rw [if_pos hxy]
        · by_cases hyx : y < x
          · rw [if_neg hxy, if_pos hyx] at hab
            exact absurd hab (by simp)
          · have heq : x = y := char_eq_of_not_lt hxy hyx
            subst heq
            rw [if_neg hxy, if_neg hyx] at hab
            by_cases hxz : x < z
            · rw [if_pos hxz]
            · by_cases hzx : z < x
              · rw [if_neg hxz, if_pos hzx] at hbc
                exact absurd hbc (by simp)
              · have heq2 : x = z := char_eq_of_not_lt hxz hzx
                subst heq2
                rw [if_neg hxz, if_neg hzx] at hbc ⊢
                exact ih ys zs hab hbc

lemma masteryLe_total (a b : MasteryItem) : masteryLe a b || masteryLe b a := by
  unfold masteryLe
  by_cases h1 : a.mistake_count = b.mistake_count
  · rw [if_pos h1, if_pos h1.symm]
    by_cases h2 : a.note_count = b.note_count
    · rw [if_pos h2, if_pos h2.symm]
      exact lexLe_total a.name b.name
    · rw [if_neg h2, if_neg (fun hc => h2 hc.symm)]
      simp only [Bool.or_eq_true, decide_eq_true_eq]
      omega
  · rw [if_neg h1, if_neg (fun hc => h1 hc.symm)]
    simp only [Bool.or_eq_true, decide_eq_true_eq]
    omega

lemma masteryLe_trans (a b c : MasteryItem) (hab : masteryLe a b) (hbc : masteryLe b c) :
    masteryLe a c := by
  unfold masteryLe at hab hbc ⊢
  by_cases h1 : a.mistake_count = b.mistake_count
  · rw [if_pos h1] at hab
    by_cases h2 : b.mistake_count = c.mistake_count
    · rw [if_pos h2] at hbc
      rw [if_pos (h1.trans h2)]
      by_cases h3 : a.note_count = b.note_count
      · rw [if_pos h3] at hab
        by_cases h4 : b.note_count = c.note_count
        · rw [if_pos h4] at hbc
          rw [if_pos (h3.trans h4)]
          exact lexLe_trans _ _ _ hab hbc
        · rw [if_neg h4] at hbc
          simp only [decide_eq_true_eq] at hbc
          rw [if_neg (by omega)]
          simp only [decide_eq_true_eq]
          omega
      · rw [if_neg h3] at hab
        simp only [decide_eq_true_eq] at hab
        by_cases h4 : b.note_count = c.note_count
        · rw [if_neg (by omega)]
          simp only [decide_eq_true_eq]
          omega
        · rw [if_neg h4] at hbc
          simp only [decide_eq_true_eq] at hbc
          rw [if_neg (by omega)]
          simp only [decide_eq_true_eq]
          omega
    · rw [if_neg h2] at hbc
      simp only [decide_eq_true_eq] at hbc
      rw [if_neg (by omega)]
      simp only [decide_eq_true_eq]
      omega
  · rw [if_neg h1] at hab
    simp only [decide_eq_true_eq] at hab
    by_cases h2 : b.mistake_count = c.mistake_count
    · rw [if_neg (by omega)]
      simp only [decide_eq_true_eq]
      omega
    · rw [if_neg h2] at hbc
      simp only [decide_eq_true_eq] at hbc
      rw [if_neg (by omega)]
      simp only [decide_eq_true_eq]
      omega

/-- C8: the mastery ranking is a permutation of the built rows, sorted by the
comparison "descending mistake-count, then descending note-count, then
ascending name"; that comparison is total and transitive (a deterministic
total preorder); in particular, for mistake-counts A=3, B=3, C=1 with
note-counts A=1, B=2 the resulting order is B, A, C. -/
theorem mastery_ranking_sorted :
    (∀ (nodes : List KnowledgeNode)
       (mc nc : List ((Int × List Char × List Char) × Nat)),
      List.Perm (computeMasteryRanking nodes mc nc) (masteryItems nodes mc nc) ∧
      (computeMasteryRanking nodes mc nc).Pairwise (fun a b => masteryLe a b = true)) ∧
    (∀ a b : MasteryItem, masteryLe a b || masteryLe b a) ∧
    (∀ a b c : MasteryItem, masteryLe a b → masteryLe b c → masteryLe a c) ∧
    (computeMasteryRanking
      [⟨1, 1, "数学".data, "A".data, kindConcept, 0, 0⟩,
       ⟨2, 1, "数学".data, "B".data, kindConcept, 0, 0⟩,
       ⟨3, 1, "数学".data, "C".data, kindConcept, 0, 0⟩]
      [((1, "数学".data, "A".data), 3), ((1, "数学".data, "B".data), 3),
       ((1, "数学".data, "C".data), 1)]
      [((1, "数学".data, "A".data), 1), ((1, "数学".data, "B".data), 2)]).map
        MasteryItem.name = ["B".data, "A".data, "C".data] := by
  refine ⟨?_, masteryLe_total, masteryLe_trans, by decide⟩
  intro nodes mc nc
  exact ⟨stableSort_perm masteryLe _,
    stableSort_pairwise masteryLe masteryLe_total masteryLe_trans _⟩

lemma pyDictGet_sizeOf {d : List (List Char × PyVal)} {k : List Char} {v : PyVal}
    (h : pyDictGet d k = some v) : sizeOf v < sizeOf (PyVal.dict d) := by
  induction d with
  | nil => simp [pyDictGet, alistGet] at h
  | cons a t ih =>
    obtain ⟨ak, aw⟩ := a
    rw [pyDictGet, alistGet] at h
    by_cases hak : ak = k
    · rw [if_pos hak] at h
      have hv : v = aw := by simpa using h.symm
      subst hv
      simp only [PyVal.dict.sizeOf_spec, List.cons.sizeOf_spec, Prod.mk.sizeOf_spec]
      omega
    · rw [if_neg hak] at h
      have := ih h
      simp only [PyVal.dict.sizeOf_spec, List.cons.sizeOf_spec, Prod.mk.sizeOf_spec] at this ⊢
      omega

/-- `str(child.get('kind') or 'concept').strip() or 'concept'`. -/
def childKindOf (cd : List (List Char × PyVal)) : List Char :=
  let k0 := match pyDictGet cd ("kind".data) with
    | some v => if pyTruthy v then pyStr v else "concept".data
    | none => "concept".data
  let k1 := stripWhile pyIsSpace k0
  if k1 = [] then "concept".data else k1

/-- `str(node.get('name') or '').strip()`: the parent name a dict node
contributes to its children's edges. -/
def dictRawName (d : List (List Char × PyVal)) : List Char :=
  stripWhile pyIsSpace (pyStrOr (pyDictGet d ("name".data)))

mutual
/-- `children = node.get('children'); if not isinstance(children, list):
return` — the children value, once found, is walked only when it is a list. -/
def flattenChildrenVal (parent_name : List Char) : PyVal →
    List (List Char × List Char × List Char)
  | .list cs => flattenChildList parent_name cs
  | _ => []

/-- First-matching-key scan of the node's entries for 'children'
(`node.get('children')` on a dict with unique keys). -/
def flattenEntries (parent_name : List Char) : List (List Char × PyVal) →
    List (List Char × List Char × List Char)
  | [] => []
  | (k, v) :: rest =>
    if k = "children".data then flattenChildrenVal parent_name v
    else flattenEntries parent_name rest

/-- One child of the walk: skip non-dicts; emit the
(parent, child, kind) triple when names admit an edge; recurse into the
child with the child's own stripped name as the new parent. -/
def flattenChild (parent_name : List Char) : PyVal →
    List (List Char × List Char × List Char)
  | .dict cd =>
    (let child_name := normalize_concept_name (pyStrOr (pyDictGet cd ("name".data)))
     if child_name ≠ [] ∧ parent_name ≠ [] ∧ child_name ≠ parent_name
     then [(parent_name, child_name, childKindOf cd)] else []) ++
    flattenEntries (dictRawName cd) cd
  | _ => []

/-- `for child in children: ... walk(child)`. -/
def flattenChildList (parent_name : List Char) : List PyVal →
    List (List Char × List Char × List Char)
  | [] => []
  | c :: rest => flattenChild parent_name c ++ flattenChildList parent_name rest
end

/-- `_flatten_mind_tree(tree)`: list of (parent_name, child_name, child_kind)
from the depth-first walk. -/
def flatten_mind_tree : PyVal → List (List Char × List Char × List Char)
  | .dict d => flattenEntries (dictRawName d) d
  | _ => []

example : flatten_mind_tree (.dict [("name".data, .str "根".data),
    ("children".data, .list [.dict [("name".data, .str "子".data),
      ("kind".data, .str "method".data)]])]) =
    [("根".data, "子".data, "method".data)] := by decide

/-- An output edge `{'from': p_id, 'to': c_id}`. -/
structure MindEdge where
  fromId : Nat
  toId : Nat
deriving DecidableEq

/-- The mutable state of one `mind_map_generate` invocation: the table, the
`nodes` dict (keyed by node id, insertion-ordered), the `name_to_id` cache
and the `edges` list. -/
structure MMState where
  db : KnowledgeDB
  nodes : List (Nat × KnowledgeNode)
  name_to_id : List (List Char × Nat)
  edges : List MindEdge
deriving DecidableEq

/-- `get_id_for_name(nm, kind)` from `mind_map_generate`: resolve a name to a
node id via the per-call cache, creating the node lazily. -/
def get_id_for_name (now : Nat) (owner : Int) (subject : List Char)
    (st : MMState) (nm kind : List Char) : Option Nat × MMState :=
  let key := normalize_concept_name nm
  if key = [] then (none, st)
  else
    match alistGet st.name_to_id key with
    | some i => (some i, st)
    | none =>
      let kindv := if kind = kindChapter ∨ kind = kindConcept ∨ kind = kindMethod ∨
          kind = kindMistake then kind else kindConcept
      match get_or_create_knowledge_node st.db now owner subject key kindv with
      | (some node, db') =>
        (some node.id,
         { db := db', nodes := alistSet st.nodes node.id node,
           name_to_id := st.name_to_id ++ [(key, node.id)], edges := st.edges })
      | (none, db') => (none, { st with db := db' })

/-- The bounded `for parent_name, child_name, child_kind in pairs[:80]` loop:
break at 34 nodes, resolve both endpoints, skip falsy/equal ids, else append
the edge. -/
def merge_pairs_loop (now : Nat) (owner : Int) (subject : List Char) :
    List (List Char × List Char × List Char) → MMState → MMState
  | [], st => st
  | pr :: rest, st =>
    if 34 ≤ st.nodes.length then st
    else
      let r1 := get_id_for_name now owner subject st pr.1 kindChapter
      let r2 := get_id_for_name now owner subject r1.2 pr.2.1 pr.2.2
      match r1.1, r2.1 with
      | some p, some c =>
        if p = 0 ∨ c = 0 ∨ p = c then merge_pairs_loop now owner subject rest r2.2
        else merge_pairs_loop now owner subject rest
          { r2.2 with edges := r2.2.edges ++ [⟨p, c⟩] }
      | _, _ => merge_pairs_loop now owner subject rest r2.2

/-- The "ensure seeds appear under root" loop: break at 34 nodes, materialize
the seed, and add a root→seed safety edge when the seed has no incoming
edge yet. -/
def merge_seed_loop (now : Nat) (owner : Int) (subject : List Char) (rootId : Nat) :
    List (List Char) → MMState → MMState
  | [], st => st
  | name :: rest, st =>
    if 34 ≤ st.nodes.length then st
    else
      match get_or_create_knowledge_node st.db now owner subject name kindConcept with
      | (some node, db') =>
        let st1 := { st with db := db', nodes := alistSet st.nodes node.id node }
        let st2 := if st1.edges.any (fun e => e.toId == node.id) then st1
          else { st1 with edges := st1.edges ++ [⟨rootId, node.id⟩] }
        merge_seed_loop now owner subject rootId rest st2
      | (none, db') => merge_seed_loop now owner subject rootId rest { st with db := db' }

/-- The deterministic flat fallback (`root -> concepts`). -/
def simple_star_loop (now : Nat) (owner : Int) (subject : List Char) (rootId : Nat) :
    List (List Char) → MMState → MMState
  | [], st => st
  | name :: rest, st =>
    match get_or_create_knowledge_node st.db now owner subject name kindConcept with
    | (some node, db') =>
      let st1 : MMState := ⟨db', alistSet st.nodes node.id node, st.name_to_id,
        st.edges ++ [⟨rootId, node.id⟩]⟩
      simple_star_loop now owner subject rootId rest st1
    | (none, db') => simple_star_loop now owner subject rootId rest { st with db := db' }

/-- `ai_tree and isinstance(ai_tree, dict) and
isinstance(ai_tree.get('tree'), dict)`: the validated tree dict, when the AI
path is taken. -/
def aiTreeDict : Option PyVal → Option (List (List Char × PyVal))
  | some (.dict d) =>
    if d.isEmpty then none
    else
      match pyDictGet d ("tree".data) with
      | some (.dict t) => some t
      | _ => none
  | _ => none

/-- `save_and_commit` of a mutated node: replace the row with the same id. -/
def replaceNodeInDb (db : KnowledgeDB) (n : KnowledgeNode) : KnowledgeDB :=
  { db with nodes := db.nodes.map (fun m => if m.id = n.id then n else m) }

/-- The graph-construction core of the `mind_map_generate` route, from
`subject = normalize_subject(subject)` to the materialized `nodes`/`edges`:
root creation (`None` models the '无法生成根节点' 500 error), then either the
AI-tree merge (root rename, bounded pairs loop, seed safety edges) or the
deterministic flat star fallback. `ai_tree` is the result of
`run_gemini_mindmap_tree` (or `None` when it failed or mode is 'simple'). -/
def mind_map_generate_core (db : KnowledgeDB) (now : Nat) (owner_user_id : Int)
    (subject0 title : List Char) (concept_names : List (List Char))
    (ai_tree : Option PyVal) :
    Option (KnowledgeNode × List (Nat × KnowledgeNode) × List MindEdge × KnowledgeDB) :=
  let subject := normalize_subject (some subject0)
  match get_or_create_knowledge_node db now owner_user_id subject title kindChapter with
  | (none, _) => none
  | (some root_node, db1) =>
    match aiTreeDict ai_tree with
    | some td =>
      let root_name0 := normalize_concept_name (pyStrOr (pyDictGet td ("name".data)))
      let root_name := if root_name0 = [] then title else root_name0
      let root2 := if root_name ≠ [] ∧ root_name ≠ root_node.name then
          { root_node with name :=
              let nn := normalize_concept_name root_name
              if nn = [] then root_node.name else nn }
        else root_node
      let db2 := if root_name ≠ [] ∧ root_name ≠ root_node.name then
          replaceNodeInDb db1 root2
        else db1
      let st0 : MMState := ⟨db2, [(root2.id, root2)],
        [(normalize_concept_name root2.name, root2.id)], []⟩
      let pairs := (flatten_mind_tree (.dict td)).take 80
      let st1 := merge_pairs_loop now owner_user_id subject pairs st0
      let st2 := merge_seed_loop now owner_user_id subject root2.id concept_names st1
      some (root2, st2.nodes, st2.edges, st2.db)
    | none =>
      let st0 : MMState := ⟨db1, [(root_node.id, root_node)], [], []⟩
      let st1 := simple_star_loop now owner_user_id subject root_node.id concept_names st0
      some (root_node, st1.nodes, st1.edges, st1.db)

/-- The AI tree of the C1 counterexample: root "R" has one child whose name is
empty, under which 17 two-node chains hang. The walk skips the edges into and
out of the unnamed node but still recurses, so each of the 17 emitted
(B, Z) pairs is disconnected from already-materialized names and the pairs
loop creates two fresh nodes per iteration. -/
def nodeCapCexTree : PyVal :=
  .dict [("tree".data, .dict [("name".data, .str "R".data),
    ("children".data, .list [.dict [("name".data, .str "".data),
      ("children".data, .list
    [.dict [("name".data, .str "Ba".data), ("children".data, .list [.dict [("name".data, .str "Za".data)]])],
     .dict [("name".data, .str "Bb".data), ("children".data, .list [.dict [("name".data, .str "Zb".data)]])],
     .dict [("name".data, .str "Bc".data), ("children".data, .list [.dict [("name".data, .str "Zc".data)]])],
     .dict [("name".data, .str "Bd".data), ("children".data, .list [.dict [("name".data, .str "Zd".data)]])],
     .dict [("name".data, .str "Be".data), ("children".data, .list [.dict [("name".data, .str "Ze".data)]])],
     .dict [("name".data, .str "Bf".data), ("children".data, .list [.dict [("name".data, .str "Zf".data)]])],
     .dict [("name".data, .str "Bg".data), ("children".data, .list [.dict [("name".data, .str "Zg".data)]])],
     .dict [("name".data, .str "Bh".data), ("children".data, .list [.dict [("name".data, .str "Zh".data)]])],
     .dict [("name".data, .str "Bi".data), ("children".data, .list [.dict [("name".data, .str "Zi".data)]])],
     .dict [("name".data, .str "Bj".data), ("children".data, .list [.dict [("name".data, .str "Zj".data)]])],
     .dict [("name".data, .str "Bk".data), ("children".data, .list [.dict [("name".data, .str "Zk".data)]])],
     .dict [("name".data, .str "Bl".data), ("children".data, .list [.dict [("name".data, .str "Zl".data)]])],
     .dict [("name".data, .str "Bm".data), ("children".data, .list [.dict [("name".data, .str "Zm".data)]])],
     .dict [("name".data, .str "Bn".data), ("children".data, .list [.dict [("name".data, .str "Zn".data)]])],
     .dict [("name".data, .str "Bo".data), ("children".data, .list [.dict [("name".data, .str "Zo".data)]])],
     .dict [("name".data, .str "Bp".data), ("children".data, .list [.dict [("name".data, .str "Zp".data)]])],
     .dict [("name".data, .str "Bq".data), ("children".data, .list [.dict [("name".data, .str "Zq".data)]])]])]])])]

/-- C1 counterexample: on this input the returned node set has 35 nodes, so
"at most 34 nodes" is false — the pairs loop checks the 34 cap before adding
up to two nodes, overshooting by one. -/
theorem mind_map_node_cap_exceeded :
    (mind_map_generate_core ⟨[], 1⟩ 0 1 ("数学".data) ("T".data) [] (some nodeCapCexTree)).map
      (fun r => r.2.1.length) = some 35 := by decide

/-- C2 counterexample: a record whose title consists of punctuation only
("——") normalizes to the empty string, root creation fails, and the call
returns the '无法生成根节点' error instead of a usable graph. -/
theorem mind_map_error_on_empty_title :
    mind_map_generate_core ⟨[], 1⟩ 0 1 ("数学".data) ("——".data) [] none = none := by decide

/-- C3 counterexample: on the fallback path, a seed concept equal to the
(normalized) title resolves to the root node itself and the star edge becomes
a self-loop root→root. -/
theorem mind_map_self_loop :
    (mind_map_generate_core ⟨[], 1⟩ 0 1 ("数学".data) ("T".data) ["T".data] none).map
      (fun r => r.2.2.1) = some [⟨1, 1⟩] := by decide

lemma alistSet_length_le {κ β : Type} [DecidableEq κ] (l : List (κ × β)) (k : κ) (v : β) :
    (alistSet l k v).length ≤ l.length + 1 := by
  induction l with
  | nil => simp [alistSet]
  | cons a t ih =>
    obtain ⟨ak, aw⟩ := a
    rw [alistSet]
    by_cases h : ak = k
    · simp [h]
    · simp only [h, if_neg, ite_false, List.length_cons]
      omega

lemma get_id_for_name_nodes_le (now : Nat) (owner : Int) (subject : List Char)
    (st : MMState) (nm kind : List Char) :
    (get_id_for_name now owner subject st nm kind).2.nodes.length ≤ st.nodes.length + 1 := by
  simp only [get_id_for_name]
  split
  · simp
  · split
    · simp
    · split
      · simp only
        exact alistSet_length_le _ _ _
      · simp

lemma merge_pairs_loop_nodes_le (now : Nat) (owner : Int) (subject : List Char)
    (pairs : List (List Char × List Char × List Char)) (st : MMState)
    (h : st.nodes.length ≤ 35) :
    (merge_pairs_loop now owner subject pairs st).nodes.length ≤ 35 := by
  induction pairs generalizing st with
  | nil => simpa [merge_pairs_loop] using h
  | cons pr rest ih =>
    simp only [merge_pairs_loop]
    by_cases h34 : 34 ≤ st.nodes.length
    · rw [if_pos h34]; exact h
    · rw [if_neg h34]
      have hb1 := get_id_for_name_nodes_le now owner subject st pr.1 kindChapter
      have hb2 := get_id_for_name_nodes_le now owner subject
        (get_id_for_name now owner subject st pr.1 kindChapter).2 pr.2.1 pr.2.2
      split
      · split
        · exact ih _ (by omega)
        · exact ih _ (by dsimp only; omega)
      · exact ih _ (by omega)

lemma merge_seed_loop_nodes_le (now : Nat) (owner : Int) (subject : List Char)
    (rootId : Nat) (names : List (List Char)) (st : MMState)
    (h : st.nodes.length ≤ 35) :
    (merge_seed_loop now owner subject rootId names st).nodes.length ≤ 35 := by
  induction names generalizing st with
  | nil => simpa [merge_seed_loop] using h
  | cons name rest ih =>
    simp only [merge_seed_loop]
    by_cases h34 : 34 ≤ st.nodes.length
    · rw [if_pos h34]; exact h
    · rw [if_neg h34]
      split
      · rename_i node db' heq
        have hset := alistSet_length_le st.nodes node.id node
        split
        · exact ih _ (by dsimp only; omega)
        · exact ih _ (by dsimp only; omega)
      · exact ih _ (by dsimp only; omega)

lemma simple_star_loop_nodes_le (now : Nat) (owner : Int) (subject : List Char)
    (rootId : Nat) (names : List (List Char)) (st : MMState) :
    (simple_star_loop now owner subject rootId names st).nodes.length ≤
      st.nodes.length + names.length := by
  induction names generalizing st with
  | nil => simp [simple_star_loop]
  | cons name rest ih =>
    simp only [simple_star_loop, List.length_cons]
    split
    · rename_i node db' heq
      have hset := alistSet_length_le st.nodes node.id node
      have hih := ih (⟨db', alistSet st.nodes node.id node, st.name_to_id,
        st.edges ++ [⟨rootId, node.id⟩]⟩)
      dsimp only at hih
      omega
    · rename_i db' heq
      have hih := ih ({ st with db := db' })
      dsimp only at hih
      omega

/-- C1 (amended): for every invocation whose seed list respects the
extractors' 16-cap, the returned node set (root included) has at most **35**
nodes: the pairs loop checks the 34-cap before an iteration that can add two
nodes, so the stated cap of 34 can be overshot by exactly one. -/
theorem mind_map_node_cap (db : KnowledgeDB) (now : Nat) (owner : Int)
    (subject0 title : List Char) (concept_names : List (List Char))
    (ai_tree : Option PyVal) (hseeds : concept_names.length ≤ 16) :
    ∀ r, mind_map_generate_core db now owner subject0 title concept_names ai_tree = some r →
      r.2.1.length ≤ 35 := by
  intro r hr
  simp only [mind_map_generate_core] at hr
  split at hr
  · exact absurd hr (by simp)
  · rename_i root_node db1 heq
    split at hr
    · rename_i td htd
      have h2 := Option.some.inj hr
      subst h2
      dsimp only
      refine merge_seed_loop_nodes_le _ _ _ _ _ _ ?_
      refine merge_pairs_loop_nodes_le _ _ _ _ _ ?_
      simp
    · have h2 := Option.some.inj hr
      subst h2
      dsimp only
      refine le_trans (simple_star_loop_nodes_le _ _ _ _ _ _) ?_
      dsimp only
      simp only [List.length_cons, List.length_nil]
      omega

/-- C1 witness: the cap theorem applied to a concrete empty-table fallback
call. -/
theorem mind_map_node_cap_witness :
    ([] : List (List Char)).length ≤ 16 ∧
    mind_map_generate_core ⟨[], 1⟩ 0 1 ("数学".data) ("T".data) [] none =
      some (⟨1, 1, "数学".data, "T".data, kindChapter, 0, 0⟩,
        [(1, ⟨1, 1, "数学".data, "T".data, kindChapter, 0, 0⟩)], [],
        ⟨[⟨1, 1, "数学".data, "T".data, kindChapter, 0, 0⟩], 2⟩) ∧
    ((⟨1, 1, "数学".data, "T".data, kindChapter, 0, 0⟩ : KnowledgeNode),
      [((1 : Nat), (⟨1, 1, "数学".data, "T".data, kindChapter, 0, 0⟩ : KnowledgeNode))],
      ([] : List MindEdge),
      (⟨[⟨1, 1, "数学".data, "T".data, kindChapter, 0, 0⟩], 2⟩ : KnowledgeDB)).2.1.length ≤ 35 :=
  ⟨by decide, by decide,
    mind_map_node_cap ⟨[], 1⟩ 0 1 ("数学".data) ("T".data) [] none (by decide) _ (by decide)⟩

lemma get_or_create_isSome (db : KnowledgeDB) (now : Nat) (owner : Int)
    (subject name kind : List Char) (h : normalize_concept_name name ≠ []) :
    (get_or_create_knowledge_node db now owner subject name kind).1.isSome := by
  unfold get_or_create_knowledge_node
  rw [if_neg h]
  split <;> simp

lemma alistGet_set_isSome {κ β : Type} [DecidableEq κ] (l : List (κ × β)) (k k' : κ)
    (v : β) (h : (alistGet l k').isSome) : (alistGet (alistSet l k v) k').isSome := by
  rw [alistGet_set]
  by_cases hk : k' = k
  · simp [hk]
  · simpa [hk] using h

lemma alistGet_set_self_isSome {κ β : Type} [DecidableEq κ] (l : List (κ × β)) (k : κ)
    (v : β) : (alistGet (alistSet l k v) k).isSome := by
  rw [alistGet_set]
  simp

lemma simple_star_loop_props (now : Nat) (owner : Int) (subject : List Char)
    (rootId : Nat) (names : List (List Char)) (st : MMState)
    (hnames : ∀ c ∈ names, normalize_concept_name c ≠ []) :
    (simple_star_loop now owner subject rootId names st).edges.length =
      st.edges.length + names.length ∧
    (∀ e ∈ (simple_star_loop now owner subject rootId names st).edges,
      e ∈ st.edges ∨ e.fromId = rootId) ∧
    (∀ k, (alistGet st.nodes k).isSome →
      (alistGet (simple_star_loop now owner subject rootId names st).nodes k).isSome) ∧
    (∀ e ∈ (simple_star_loop now owner subject rootId names st).edges,
      e ∈ st.edges ∨
        (alistGet (simple_star_loop now owner subject rootId names st).nodes e.toId).isSome) := by
  induction names generalizing st with
  | nil =>
    simp only [simple_star_loop, List.length_nil]
    exact ⟨rfl, fun e he => Or.inl he, fun k hk => hk, fun e he => Or.inl he⟩
  | cons name rest ih =>
    simp only [simple_star_loop, List.length_cons]
    split
    · rename_i node db' heq
      have hih := ih (⟨db', alistSet st.nodes node.id node, st.name_to_id,
        st.edges ++ [⟨rootId, node.id⟩]⟩) (fun c hc => hnames c (by simp [hc]))
      dsimp only at hih
      obtain ⟨hlen, horig, hpres, htarg⟩ := hih
      refine ⟨by rw [hlen]; simp only [List.length_append, List.length_cons, List.length_nil]; omega,
        ?_, ?_, ?_⟩
      · intro e he
        rcases horig e he with hmem | hroot
        · rcases List.mem_append.mp hmem with h1 | h1
          · exact Or.inl h1
          · right
            have : e = (⟨rootId, node.id⟩ : MindEdge) := by simpa using h1
            rw [this]
        · exact Or.inr hroot
      · intro k hk
        exact hpres k (alistGet_set_isSome st.nodes node.id k node hk)
      · intro e he
        rcases htarg e he with hmem | hsome
        · rcases List.mem_append.mp hmem with h1 | h1
          · exact Or.inl h1
          · right
            have he2 : e = (⟨rootId, node.id⟩ : MindEdge) := by simpa using h1
            rw [he2]
            exact hpres node.id (alistGet_set_self_isSome st.nodes node.id node)
        · exact Or.inr hsome
    · rename_i db' heq
      exfalso
      have hs := get_or_create_isSome st.db now owner subject name kindConcept
        (hnames name (by simp))
      rw [heq] at hs
      simp at hs

lemma simple_star_loop_nodes_pres (now : Nat) (owner : Int) (subject : List Char)
    (rootId : Nat) (names : List (List Char)) (st : MMState) (k : Nat)
    (h : (alistGet st.nodes k).isSome) :
    (alistGet (simple_star_loop now owner subject rootId names st).nodes k).isSome := by
  induction names generalizing st with
  | nil => simpa [simple_star_loop] using h
  | cons name rest ih =>
    simp only [simple_star_loop]
    split
    · rename_i node db' heq
      exact ih _ (alistGet_set_isSome st.nodes node.id k node h)
    · exact ih _ h

lemma get_id_for_name_nodes_pres (now : Nat) (owner : Int) (subject : List Char)
    (st : MMState) (nm kind : List Char) (k : Nat)
    (h : (alistGet st.nodes k).isSome) :
    (alistGet (get_id_for_name now owner subject st nm kind).2.nodes k).isSome := by
  simp only [get_id_for_name]
  split
  · exact h
  · split
    · exact h
    · split
      · rename_i node db' heq
        exact alistGet_set_isSome st.nodes node.id k node h
      · exact h

lemma merge_pairs_loop_nodes_pres (now : Nat) (owner : Int) (subject : List Char)
    (pairs : List (List Char × List Char × List Char)) (st : MMState) (k : Nat)
    (h : (alistGet st.nodes k).isSome) :
    (alistGet (merge_pairs_loop now owner subject pairs st).nodes k).isSome := by
  induction pairs generalizing st with
  | nil => simpa [merge_pairs_loop] using h
  | cons pr rest ih =>
    simp only [merge_pairs_loop]
    by_cases h34 : 34 ≤ st.nodes.length
    · rw [if_pos h34]; exact h
    · rw [if_neg h34]
      have h1 := get_id_for_name_nodes_pres now owner subject st pr.1 kindChapter k h
      have h2 := get_id_for_name_nodes_pres now owner subject
        (get_id_for_name now owner subject st pr.1 kindChapter).2 pr.2.1 pr.2.2 k h1
      split
      · split
        · exact ih _ h2
        · exact ih _ (by dsimp only; exact h2)
      · exact ih _ h2

lemma merge_seed_loop_nodes_pres (now : Nat) (owner : Int) (subject : List Char)
    (rootId : Nat) (names : List (List Char)) (st : MMState) (k : Nat)
    (h : (alistGet st.nodes k).isSome) :
    (alistGet (merge_seed_loop now owner subject rootId names st).nodes k).isSome := by
  induction names generalizing st with
  | nil => simpa [merge_seed_loop] using h
  | cons name rest ih =>
    simp only [merge_seed_loop]
    by_cases h34 : 34 ≤ st.nodes.length
    · rw [if_pos h34]; exact h
    · rw [if_neg h34]
      split
      · rename_i node db' heq
        have h1 := alistGet_set_isSome st.nodes node.id k node h
        split
        · exact ih _ (by dsimp only; exact h1)
        · exact ih _ (by dsimp only; exact h1)
      · exact ih _ h

/-- C2 (amended): for every request that reaches graph construction with a
title whose normalized form is non-empty (true of every title except
punctuation/whitespace-only ones) and extractor-produced seeds, the call
succeeds for every AI-tree outcome (including AI success) and the returned
node set contains the root; in particular, when the AI tree failed or was
absent, the result is the flat star graph: exactly one root→seed-node edge
per seed concept. A punctuation-only title instead yields the root-creation
error. -/
theorem mind_map_fallback_star (db : KnowledgeDB) (now : Nat) (owner : Int)
    (subject0 title : List Char) (concept_names : List (List Char))
    (htitle : normalize_concept_name title ≠ [])
    (hseeds : ∀ c ∈ concept_names, normalize_concept_name c ≠ []) :
    (∀ ai_tree : Option PyVal,
      (mind_map_generate_core db now owner subject0 title concept_names ai_tree).isSome ∧
      ∀ r, mind_map_generate_core db now owner subject0 title concept_names ai_tree =
          some r → (alistGet r.2.1 r.1.id).isSome) ∧
    ∀ r, mind_map_generate_core db now owner subject0 title concept_names none = some r →
      r.2.2.1.length = concept_names.length ∧
      (∀ e ∈ r.2.2.1, e.fromId = r.1.id) ∧
      (∀ e ∈ r.2.2.1, (alistGet r.2.1 e.toId).isSome) := by
  obtain ⟨root, db1, heq⟩ : ∃ n d,
      get_or_create_knowledge_node db now owner (normalize_subject (some subject0))
        title kindChapter = (some n, d) := by
    have hs := get_or_create_isSome db now owner (normalize_subject (some subject0))
      title kindChapter htitle
    rcases hgg : get_or_create_knowledge_node db now owner
        (normalize_subject (some subject0)) title kindChapter with ⟨o, d⟩
    cases o with
    | none => rw [hgg] at hs; simp at hs
    | some n => exact ⟨n, d, rfl⟩
  constructor
  · intro ai_tree
    constructor
    · simp only [mind_map_generate_core, heq]
      rcases htd : aiTreeDict ai_tree with _ | td <;> simp [htd]
    · intro r hr
      simp only [mind_map_generate_core, heq] at hr
      rcases htd : aiTreeDict ai_tree with _ | td
      · simp only [htd] at hr
        have h2 := Option.some.inj hr
        subst h2
        dsimp only
        exact simple_star_loop_nodes_pres now owner (normalize_subject (some subject0))
          root.id concept_names ⟨db1, [(root.id, root)], [], []⟩ root.id
          (by simp [alistGet])
      · simp only [htd] at hr
        have h2 := Option.some.inj hr
        subst h2
        dsimp only
        refine merge_seed_loop_nodes_pres now owner (normalize_subject (some subject0))
          _ concept_names _ _ ?_
        refine merge_pairs_loop_nodes_pres now owner (normalize_subject (some subject0))
          _ _ _ ?_
        simp [alistGet]
  · intro r hr
    simp only [mind_map_generate_core, heq, aiTreeDict] at hr
    have h2 := Option.some.inj hr
    subst h2
    have hprops := simple_star_loop_props now owner (normalize_subject (some subject0))
      root.id concept_names ⟨db1, [(root.id, root)], [], []⟩ hseeds
    dsimp only at hprops
    obtain ⟨hlen, horig, hpres, htarg⟩ := hprops
    refine ⟨?_, ?_, ?_⟩
    · rw [hlen]; simp
    · intro e he
      rcases horig e he with hmem | hroot
      · simp at hmem
      · exact hroot
    · intro e he
      rcases htarg e he with hmem | hsome
      · simp at hmem
      · exact hsome

/-- C2 witness: the theorem at a concrete one-seed call. -/
theorem mind_map_fallback_star_witness :
    normalize_concept_name ("T".data) ≠ [] ∧
    (∀ c ∈ (["函数".data] : List (List Char)), normalize_concept_name c ≠ []) ∧
    ((∀ ai_tree : Option PyVal,
       (mind_map_generate_core ⟨[], 1⟩ 0 1 ("数学".data) ("T".data) ["函数".data]
         ai_tree).isSome ∧
       ∀ r, mind_map_generate_core ⟨[], 1⟩ 0 1 ("数学".data) ("T".data) ["函数".data]
           ai_tree = some r → (alistGet r.2.1 r.1.id).isSome) ∧
     ∀ r, mind_map_generate_core ⟨[], 1⟩ 0 1 ("数学".data) ("T".data) ["函数".data] none =
         some r →
       r.2.2.1.length = (["函数".data] : List (List Char)).length ∧
       (∀ e ∈ r.2.2.1, e.fromId = r.1.id) ∧
       (∀ e ∈ r.2.2.1, (alistGet r.2.1 e.toId).isSome)) :=
  ⟨by decide, by decide,
    mind_map_fallback_star ⟨[], 1⟩ 0 1 ("数学".data) ("T".data) ["函数".data]
      (by decide) (by decide)⟩

/-- The invariant that makes root self-loops traceable: a well-formed table,
a root id below the autoincrement counter, and every row carrying the root id
having the root's name. -/
def RootInv (rootId : Nat) (rootName : List Char) (db : KnowledgeDB) : Prop :=
  WFdb db ∧ rootId < db.nextId ∧ ∀ n ∈ db.nodes, n.id = rootId → n.name = rootName

lemma map_id_replace (l : List KnowledgeNode) (n0 r : KnowledgeNode) (hid : r.id = n0.id) :
    (l.map (fun m => if m.id = n0.id then r else m)).map KnowledgeNode.id =
      l.map KnowledgeNode.id := by
  induction l with
  | nil => rfl
  | cons a t ih =>
    simp only [List.map_cons]
    by_cases h : a.id = n0.id
    · rw [if_pos h, ih, hid, h]
    · rw [if_neg h, ih]

lemma get_or_create_RootInv (db : KnowledgeDB) (now : Nat) (owner : Int)
    (subject name kind : List Char) (rootId : Nat) (rootName : List Char)
    (hinv : RootInv rootId rootName db) :
    RootInv rootId rootName (get_or_create_knowledge_node db now owner subject name kind).2 ∧
    ∀ n, (get_or_create_knowledge_node db now owner subject name kind).1 = some n →
      n.name = normalize_concept_name name ∧ (n.id = rootId → n.name = rootName) := by
  obtain ⟨⟨hnd, hlt⟩, hrlt, hroot⟩ := hinv
  by_cases hname : normalize_concept_name name = []
  · unfold get_or_create_knowledge_node
    rw [if_pos hname]
    exact ⟨⟨⟨hnd, hlt⟩, hrlt, hroot⟩, fun n hn => by simp at hn⟩
  · cases hfind : db.nodes.find? (nodeMatches owner (normalize_subject (some subject))
        (normalize_concept_name name)) with
    | some n0 =>
      rw [get_or_create_eq_found hname hfind]
      have hn0mem : n0 ∈ db.nodes := List.mem_of_find?_eq_some hfind
      have hp0 : nodeMatches owner (normalize_subject (some subject))
          (normalize_concept_name name) n0 = true := List.find?_some hfind
      have hn0name : n0.name = normalize_concept_name name := by
        simp only [nodeMatches, Bool.and_eq_true, beq_iff_eq] at hp0
        exact hp0.2
      constructor
      · refine ⟨⟨?_, ?_⟩, hrlt, ?_⟩
        · rw [map_id_replace db.nodes n0 (foundUpdate n0 now kind) rfl]
          exact hnd
        · intro n hn
          simp only [List.mem_map] at hn
          obtain ⟨x, hx, hfx⟩ := hn
          by_cases hxid : x.id = n0.id
          · rw [if_pos hxid] at hfx
            rw [← hfx]
            exact hxid ▸ hlt x hx
          · rw [if_neg hxid] at hfx
            rw [← hfx]
            exact hlt x hx
        · intro n hn hid
          simp only [List.mem_map] at hn
          obtain ⟨x, hx, hfx⟩ := hn
          by_cases hxid : x.id = n0.id
          · rw [if_pos hxid] at hfx
            have hn0id : n0.id = rootId := by
              rw [← hid, ← hfx]
              rfl
            rw [← hfx]
            exact hroot n0 hn0mem hn0id
          · rw [if_neg hxid] at hfx
            rw [← hfx]
            exact hroot x hx (by rw [hfx]; exact hid)
      · intro n hn
        have hn' : n = foundUpdate n0 now kind := by simpa using hn.symm
        subst hn'
        refine ⟨hn0name, ?_⟩
        intro hid
        have : n0.id = rootId := hid
        exact hroot n0 hn0mem this
    | none =>
      rw [get_or_create_eq_new hname hfind]
      constructor
      · refine ⟨⟨?_, ?_⟩, by simp only; omega, ?_⟩
        · rw [List.map_append]
          refine List.Nodup.append hnd (by simp) ?_
          intro a ha hb
          simp only [List.mem_map] at ha
          obtain ⟨x, hx, hxa⟩ := ha
          have := hlt x hx
          simp only [createdNode, List.map_cons, List.map_nil, List.mem_singleton] at hb
          omega
        · intro n hn
          rcases List.mem_append.mp hn with h1 | h1
          · have := hlt n h1
            simp only
            omega
          · have hn' : n = createdNode db now owner subject name kind := by simpa using h1
            rw [hn']
            simp only [createdNode]
            omega
        · intro n hn hid
          rcases List.mem_append.mp hn with h1 | h1
          · exact hroot n h1 hid
          · exfalso
            have hn' : n = createdNode db now owner subject name kind := by simpa using h1
            rw [hn'] at hid
            simp only [createdNode] at hid
            omega
      · intro n hn
        have hn' : n = createdNode db now owner subject name kind := by simpa using hn.symm
        subst hn'
        refine ⟨rfl, ?_⟩
        intro hid
        exfalso
        simp only [createdNode] at hid
        omega

lemma get_or_create_init_RootInv (db : KnowledgeDB) (now : Nat) (owner : Int)
    (subject name kind : List Char) (hwf : WFdb db)
    (root : KnowledgeNode) (db1 : KnowledgeDB)
    (heq : get_or_create_knowledge_node db now owner subject name kind = (some root, db1)) :
    RootInv root.id root.name db1 := by
  obtain ⟨hnd, hlt⟩ := hwf
  by_cases hname : normalize_concept_name name = []
  · rw [show get_or_create_knowledge_node db now owner subject name kind = (none, db) from
      by unfold get_or_create_knowledge_node; rw [if_pos hname]] at heq
    exact absurd (congrArg Prod.fst heq) (by simp)
  · cases hfind : db.nodes.find? (nodeMatches owner (normalize_subject (some subject))
        (normalize_concept_name name)) with
    | some n0 =>
      rw [get_or_create_eq_found hname hfind] at heq
      have hn0mem : n0 ∈ db.nodes := List.mem_of_find?_eq_some hfind
      have hroot : foundUpdate n0 now kind = root :=
        Option.some.inj (congrArg Prod.fst heq)
      have hdb : ({ db with nodes := db.nodes.map (fun m =>
          if m.id = n0.id then foundUpdate n0 now kind else m) } : KnowledgeDB) = db1 :=
        congrArg Prod.snd heq
      subst hroot
      subst hdb
      refine ⟨⟨?_, ?_⟩, ?_, ?_⟩
      · rw [map_id_replace db.nodes n0 (foundUpdate n0 now kind) rfl]
        exact hnd
      · intro n hn
        simp only [List.mem_map] at hn
        obtain ⟨x, hx, hfx⟩ := hn
        by_cases hxid : x.id = n0.id
        · rw [if_pos hxid] at hfx
          rw [← hfx]
          exact hxid ▸ hlt x hx
        · rw [if_neg hxid] at hfx
          rw [← hfx]
          exact hlt x hx
      · exact hlt n0 hn0mem
      · intro n hn hid
        simp only [List.mem_map] at hn
        obtain ⟨x, hx, hfx⟩ := hn
        by_cases hxid : x.id = n0.id
        · rw [if_pos hxid] at hfx
          rw [← hfx]
        · exfalso
          rw [if_neg hxid] at hfx
          rw [← hfx] at hid
          exact hxid hid
    | none =>
      rw [get_or_create_eq_new hname hfind] at heq
      have hroot : createdNode db now owner subject name kind = root :=
        Option.some.inj (congrArg Prod.fst heq)
      have hdb : ({ nodes := db.nodes ++ [createdNode db now owner subject name kind],
                    nextId := db.nextId + 1 } : KnowledgeDB) = db1 :=
        congrArg Prod.snd heq
      subst hroot
      subst hdb
      refine ⟨⟨?_, ?_⟩, ?_, ?_⟩
      · rw [List.map_append]
        refine List.Nodup.append hnd (by simp) ?_
        intro a ha hb
        simp only [List.mem_map] at ha
        obtain ⟨x, hx, hxa⟩ := ha
        have := hlt x hx
        simp only [createdNode, List.map_cons, List.map_nil, List.mem_singleton] at hb
        omega
      · intro n hn
        rcases List.mem_append.mp hn with h1 | h1
        · have := hlt n h1
          simp only
          omega
        · have hn' : n = createdNode db now owner subject name kind := by simpa using h1
          rw [hn']
          simp only [createdNode]
          omega
      · simp only [createdNode]
        omega
      · intro n hn hid
        rcases List.mem_append.mp hn with h1 | h1
        · exfalso
          have := hlt n h1
          simp only [createdNode] at hid
          omega
        · have hn' : n = createdNode db now owner subject name kind := by simpa using h1
          rw [hn']
      
lemma replaceNode_RootInv (db : KnowledgeDB) (r : KnowledgeNode)
    (rootName0 : List Char) (hinv : RootInv r.id rootName0 db) :
    RootInv r.id r.name (replaceNodeInDb db r) := by
  obtain ⟨⟨hnd, hlt⟩, hrlt, _⟩ := hinv
  refine ⟨⟨?_, ?_⟩, hrlt, ?_⟩
  · rw [show (replaceNodeInDb db r).nodes = db.nodes.map (fun m =>
      if m.id = r.id then r else m) from rfl]
    rw [map_id_replace db.nodes r r rfl]
    exact hnd
  · intro n hn
    simp only [replaceNodeInDb, List.mem_map] at hn
    obtain ⟨x, hx, hfx⟩ := hn
    by_cases hxid : x.id = r.id
    · rw [if_pos hxid] at hfx
      rw [← hfx]
      exact hxid ▸ hlt x hx
    · rw [if_neg hxid] at hfx
      rw [← hfx]
      exact hlt x hx
  · intro n hn hid
    simp only [replaceNodeInDb, List.mem_map] at hn
    obtain ⟨x, hx, hfx⟩ := hn
    by_cases hxid : x.id = r.id
    · rw [if_pos hxid] at hfx
      rw [← hfx]
    · exfalso
      rw [if_neg hxid] at hfx
      rw [← hfx] at hid
      exact hxid hid

lemma get_id_for_name_RootInv (now : Nat) (owner : Int) (subject : List Char)
    (st : MMState) (nm kind : List Char) (rootId : Nat) (rootName : List Char)
    (hinv : RootInv rootId rootName st.db) :
    RootInv rootId rootName (get_id_for_name now owner subject st nm kind).2.db := by
  simp only [get_id_for_name]
  split
  · exact hinv
  · split
    · exact hinv
    · split
      · rename_i node db' heq
        have h := (get_or_create_RootInv st.db now owner subject
          (normalize_concept_name nm)
          (if kind = kindChapter ∨ kind = kindConcept ∨ kind = kindMethod ∨
            kind = kindMistake then kind else kindConcept)
          rootId rootName hinv).1
        rw [heq] at h
        exact h
      · rename_i db' heq
        have h := (get_or_create_RootInv st.db now owner subject
          (normalize_concept_name nm)
          (if kind = kindChapter ∨ kind = kindConcept ∨ kind = kindMethod ∨
            kind = kindMistake then kind else kindConcept)
          rootId rootName hinv).1
        rw [heq] at h
        exact h

lemma get_id_for_name_edges (now : Nat) (owner : Int) (subject : List Char)
    (st : MMState) (nm kind : List Char) :
    (get_id_for_name now owner subject st nm kind).2.edges = st.edges := by
  simp only [get_id_for_name]
  split
  · rfl
  · split
    · rfl
    · split <;> rfl

lemma merge_pairs_loop_RootInv (now : Nat) (owner : Int) (subject : List Char)
    (pairs : List (List Char × List Char × List Char)) (st : MMState)
    (rootId : Nat) (rootName : List Char) (hinv : RootInv rootId rootName st.db) :
    RootInv rootId rootName (merge_pairs_loop now owner subject pairs st).db := by
  induction pairs generalizing st with
  | nil => simpa [merge_pairs_loop] using hinv
  | cons pr rest ih =>
    simp only [merge_pairs_loop]
    by_cases h34 : 34 ≤ st.nodes.length
    · rw [if_pos h34]; exact hinv
    · rw [if_neg h34]
      have h1 := get_id_for_name_RootInv now owner subject st pr.1 kindChapter
        rootId rootName hinv
      have h2 := get_id_for_name_RootInv now owner subject
        (get_id_for_name now owner subject st pr.1 kindChapter).2 pr.2.1 pr.2.2
        rootId rootName h1
      split
      · split
        · exact ih _ h2
        · exact ih _ (by dsimp only; exact h2)
      · exact ih _ h2

lemma merge_pairs_loop_edge_pred (Q : MindEdge → Prop)
    (hQ : ∀ p c : Nat, p ≠ c → Q ⟨p, c⟩)
    (now : Nat) (owner : Int) (subject : List Char)
    (pairs : List (List Char × List Char × List Char)) (st : MMState)
    (h : ∀ e ∈ st.edges, Q e) :
    ∀ e ∈ (merge_pairs_loop now owner subject pairs st).edges, Q e := by
  induction pairs generalizing st with
  | nil => simpa [merge_pairs_loop] using h
  | cons pr rest ih =>
    simp only [merge_pairs_loop]
    by_cases h34 : 34 ≤ st.nodes.length
    · rw [if_pos h34]; exact h
    · rw [if_neg h34]
      have hed : (get_id_for_name now owner subject
          (get_id_for_name now owner subject st pr.1 kindChapter).2 pr.2.1
          pr.2.2).2.edges = st.edges := by
        rw [get_id_for_name_edges, get_id_for_name_edges]
      split
      · rename_i p c hp hc
        split
        · refine ih _ ?_
          rw [hed]
          exact h
        · rename_i hguard
          refine ih _ ?_
          intro e he
          dsimp only at he
          rcases List.mem_append.mp he with h1 | h1
          · exact h e (hed ▸ h1)
          · have he2 : e = (⟨p, c⟩ : MindEdge) := by simpa using h1
            rw [he2]
            exact hQ p c (fun hc => hguard (Or.inr (Or.inr hc)))
      · refine ih _ ?_
        rw [hed]
        exact h

lemma merge_seed_loop_RootInv (now : Nat) (owner : Int) (subject : List Char)
    (rootId : Nat) (names : List (List Char)) (st : MMState)
    (rid : Nat) (rootName : List Char) (hinv : RootInv rid rootName st.db) :
    RootInv rid rootName (merge_seed_loop now owner subject rootId names st).db := by
  induction names generalizing st with
  | nil => simpa [merge_seed_loop] using hinv
  | cons name rest ih =>
    simp only [merge_seed_loop]
    by_cases h34 : 34 ≤ st.nodes.length
    · rw [if_pos h34]; exact hinv
    · rw [if_neg h34]
      split
      · rename_i node db' heq
        have h := (get_or_create_RootInv st.db now owner subject name kindConcept
          rid rootName hinv).1
        rw [heq] at h
        split
        · exact ih _ h
        · exact ih _ (by dsimp only; exact h)
      · rename_i db' heq
        have h := (get_or_create_RootInv st.db now owner subject name kindConcept
          rid rootName hinv).1
        rw [heq] at h
        exact ih _ h

lemma merge_seed_loop_edge_pred (Q : MindEdge → Prop) (rootId : Nat)
    (hQ : ∀ x : Nat, Q ⟨rootId, x⟩)
    (now : Nat) (owner : Int) (subject : List Char)
    (names : List (List Char)) (st : MMState)
    (h : ∀ e ∈ st.edges, Q e) :
    ∀ e ∈ (merge_seed_loop now owner subject rootId names st).edges, Q e := by
  induction names generalizing st with
  | nil => simpa [merge_seed_loop] using h
  | cons name rest ih =>
    simp only [merge_seed_loop]
    by_cases h34 : 34 ≤ st.nodes.length
    · rw [if_pos h34]; exact h
    · rw [if_neg h34]
      split
      · rename_i node db' heq
        split
        · exact ih _ h
        · refine ih _ ?_
          intro e he
          dsimp only at he
          rcases List.mem_append.mp he with h1 | h1
          · exact h e h1
          · have he2 : e = (⟨rootId, node.id⟩ : MindEdge) := by simpa using h1
            rw [he2]
            exact hQ node.id
      · exact ih _ h

lemma simple_star_loop_edge_pred (Q : MindEdge → Prop) (rootId : Nat)
    (hQ : ∀ x : Nat, Q ⟨rootId, x⟩)
    (now : Nat) (owner : Int) (subject : List Char)
    (names : List (List Char)) (st : MMState)
    (h : ∀ e ∈ st.edges, Q e) :
    ∀ e ∈ (simple_star_loop now owner subject rootId names st).edges, Q e := by
  induction names generalizing st with
  | nil => simpa [simple_star_loop] using h
  | cons name rest ih =>
    simp only [simple_star_loop]
    split
    · rename_i node db' heq
      refine ih _ ?_
      intro e he
      dsimp only at he
      rcases List.mem_append.mp he with h1 | h1
      · exact h e h1
      · have he2 : e = (⟨rootId, node.id⟩ : MindEdge) := by simpa using h1
        rw [he2]
        exact hQ node.id
    · exact ih _ h

lemma merge_seed_loop_no_self (now : Nat) (owner : Int) (subject : List Char)
    (rootId : Nat) (rootName : List Char) (names : List (List Char)) (st : MMState)
    (hinv : RootInv rootId rootName st.db)
    (hseeds : ∀ c ∈ names, normalize_concept_name c ≠ rootName)
    (h : ∀ e ∈ st.edges, e.fromId ≠ e.toId) :
    ∀ e ∈ (merge_seed_loop now owner subject rootId names st).edges,
      e.fromId ≠ e.toId := by
  induction names generalizing st with
  | nil => simpa [merge_seed_loop] using h
  | cons name rest ih =>
    simp only [merge_seed_loop]
    by_cases h34 : 34 ≤ st.nodes.length
    · rw [if_pos h34]; exact h
    · rw [if_neg h34]
      split
      · rename_i node db' heq
        have hx := get_or_create_RootInv st.db now owner subject name kindConcept
          rootId rootName hinv
        have hinv' : RootInv rootId rootName db' := by
          have := hx.1
          rw [heq] at this
          exact this
        have hnode := hx.2 node (by rw [heq])
        have hne : rootId ≠ node.id := by
          intro hc
          exact hseeds name (by simp) (by rw [← hnode.1]; exact hnode.2 hc.symm)
        split
        · exact ih _ hinv' (fun c hc => hseeds c (by simp [hc])) h
        · refine ih _ hinv' (fun c hc => hseeds c (by simp [hc])) ?_
          intro e he
          dsimp only at he
          rcases List.mem_append.mp he with h1 | h1
          · exact h e h1
          · have he2 : e = (⟨rootId, node.id⟩ : MindEdge) := by simpa using h1
            rw [he2]
            exact hne
      · rename_i db' heq
        have hinv' : RootInv rootId rootName db' := by
          have := (get_or_create_RootInv st.db now owner subject name kindConcept
            rootId rootName hinv).1
          rw [heq] at this
          exact this
        exact ih _ hinv' (fun c hc => hseeds c (by simp [hc])) h

lemma simple_star_loop_no_self (now : Nat) (owner : Int) (subject : List Char)
    (rootId : Nat) (rootName : List Char) (names : List (List Char)) (st : MMState)
    (hinv : RootInv rootId rootName st.db)
    (hseeds : ∀ c ∈ names, normalize_concept_name c ≠ rootName)
    (h : ∀ e ∈ st.edges, e.fromId ≠ e.toId) :
    ∀ e ∈ (simple_star_loop now owner subject rootId names st).edges,
      e.fromId ≠ e.toId := by
  induction names generalizing st with
  | nil => simpa [simple_star_loop] using h
  | cons name rest ih =>
    simp only [simple_star_loop]
    split
    · rename_i node db' heq
      have hx := get_or_create_RootInv st.db now owner subject name kindConcept
        rootId rootName hinv
      have hinv' : RootInv rootId rootName db' := by
        have := hx.1
        rw [heq] at this
        exact this
      have hnode := hx.2 node (by rw [heq])
      have hne : rootId ≠ node.id := by
        intro hc
        exact hseeds name (by simp) (by rw [← hnode.1]; exact hnode.2 hc.symm)
      refine ih _ hinv' (fun c hc => hseeds c (by simp [hc])) ?_
      intro e he
      dsimp only at he
      rcases List.mem_append.mp he with h1 | h1
      · exact h e h1
      · have he2 : e = (⟨rootId, node.id⟩ : MindEdge) := by simpa using h1
        rw [he2]
        exact hne
    · rename_i db' heq
      have hinv' : RootInv rootId rootName db' := by
        have := (get_or_create_RootInv st.db now owner subject name kindConcept
          rootId rootName hinv).1
        rw [heq] at this
        exact this
      exact ih _ hinv' (fun c hc => hseeds c (by simp [hc])) h

lemma merge_phase_edges (now : Nat) (owner : Int) (subject : List Char)
    (pairs : List (List Char × List Char × List Char))
    (concept_names : List (List Char)) (root2 : KnowledgeNode) (db2 : KnowledgeDB)
    (hinv : RootInv root2.id root2.name db2) :
    (∀ e ∈ (merge_seed_loop now owner subject root2.id concept_names
        (merge_pairs_loop now owner subject pairs
          ⟨db2, [(root2.id, root2)],
            [(normalize_concept_name root2.name, root2.id)], []⟩)).edges,
      e.fromId = e.toId → e.fromId = root2.id) ∧
    ((∀ c ∈ concept_names, normalize_concept_name c ≠ root2.name) →
      ∀ e ∈ (merge_seed_loop now owner subject root2.id concept_names
        (merge_pairs_loop now owner subject pairs
          ⟨db2, [(root2.id, root2)],
            [(normalize_concept_name root2.name, root2.id)], []⟩)).edges,
        e.fromId ≠ e.toId) := by
  constructor
  · refine merge_seed_loop_edge_pred (fun e => e.fromId = e.toId → e.fromId = root2.id)
      root2.id (fun x _ => rfl) now owner subject concept_names _ ?_
    refine merge_pairs_loop_edge_pred _ (fun p c hpc hcon => absurd hcon hpc)
      now owner subject pairs _ ?_
    intro e he
    simp at he
  · intro hseeds
    refine merge_seed_loop_no_self now owner subject root2.id root2.name concept_names _
      ?_ hseeds ?_
    · exact merge_pairs_loop_RootInv now owner subject pairs _ root2.id root2.name hinv
    · refine merge_pairs_loop_edge_pred (fun e => e.fromId ≠ e.toId) (fun p c h => h)
        now owner subject pairs _ ?_
      intro e he
      simp at he

/-- C3 (amended): every edge produced by the pairs loop has from ≠ to, and in
every output edge list a self-loop can only be the root looping to itself;
when no seed concept's normalized name equals the (possibly AI-renamed) root
node's name, the output has no self-loop at all. A seed equal to the root's
name resolves to the root node and yields a root→root edge on the fallback
and seed-safety paths. -/
theorem mind_map_no_self_loops (db : KnowledgeDB) (now : Nat) (owner : Int)
    (subject0 title : List Char) (concept_names : List (List Char))
    (ai_tree : Option PyVal) (hwf : WFdb db) :
    ∀ r, mind_map_generate_core db now owner subject0 title concept_names ai_tree = some r →
      (∀ e ∈ r.2.2.1, e.fromId = e.toId → e.fromId = r.1.id) ∧
      ((∀ c ∈ concept_names, normalize_concept_name c ≠ r.1.name) →
        ∀ e ∈ r.2.2.1, e.fromId ≠ e.toId) := by
  intro r hr
  simp only [mind_map_generate_core] at hr
  split at hr
  · exact absurd hr (by simp)
  · rename_i root_node db1 heq
    have hinit : RootInv root_node.id root_node.name db1 :=
      get_or_create_init_RootInv db now owner _ title kindChapter hwf root_node db1 heq
    split at hr
    · rename_i td htd
      have h2 := Option.some.inj hr
      subst h2
      dsimp only
      refine merge_phase_edges now owner _ _ _ _ _ ?_
      by_cases hC : (if normalize_concept_name (pyStrOr (pyDictGet td ("name".data))) = []
            then title
            else normalize_concept_name (pyStrOr (pyDictGet td ("name".data)))) ≠ [] ∧
          (if normalize_concept_name (pyStrOr (pyDictGet td ("name".data))) = []
            then title
            else normalize_concept_name (pyStrOr (pyDictGet td ("name".data)))) ≠
            root_node.name
      · rw [if_pos hC, if_pos hC]
        exact replaceNode_RootInv db1 _ root_node.name hinit
      · rw [if_neg hC, if_neg hC]
        exact hinit
    · have h2 := Option.some.inj hr
      subst h2
      dsimp only
      constructor
      · refine simple_star_loop_edge_pred
          (fun e => e.fromId = e.toId → e.fromId = root_node.id)
          root_node.id (fun x _ => rfl) now owner _ concept_names _ ?_
        intro e he
        simp at he
      · intro hseeds
        refine simple_star_loop_no_self now owner _ root_node.id root_node.name
          concept_names _ hinit hseeds ?_
        intro e he
        simp at he

/-- C3 witness: the self-loop theorem at a concrete fallback call whose seed
differs from the title. -/
theorem mind_map_no_self_loops_witness :
    WFdb ⟨[], 1⟩ ∧
    (∀ r, mind_map_generate_core ⟨[], 1⟩ 0 1 ("数学".data) ("T".data) ["函数".data] none =
        some r →
      (∀ e ∈ r.2.2.1, e.fromId = e.toId → e.fromId = r.1.id) ∧
      ((∀ c ∈ (["函数".data] : List (List Char)), normalize_concept_name c ≠ r.1.name) →
        ∀ e ∈ r.2.2.1, e.fromId ≠ e.toId)) :=
  ⟨by decide,
    mind_map_no_self_loops ⟨[], 1⟩ 0 1 ("数学".data) ("T".data) ["函数".data] none
      (by decide)⟩
